import Mathlib

/-!
Verification of the flake-input pinning engine
(`pin-flake-inputs/src/flakePinning.ts`).

The TypeScript source is shallowly embedded here.  Text buffers are
`List Char`; every regular expression appearing in the source
(`isAlreadyPinned`, the simple/block locate patterns, the url-line pattern
inside a block, and the `renovate:`-prefix migration pattern) is embedded as
an explicit deterministic matcher that reproduces the JavaScript semantics
of that concrete pattern: multiline `^`/`$` anchors, greedy `\s*` with
backtracking, lazy `[\s\S]*?`, first-match `exec`, global `replace` with
`$`-substitution of the replacement string, and `test`-style existence.
Since every dynamic fragment of those patterns is passed through
`escapeRegex` in the source, dynamic fragments are modelled as literal
character sequences.
-/

/-- JavaScript `\s` character class (ASCII white space, Unicode space
separators, BOM), as used by the source's regular expressions. -/
def isSpaceJS (c : Char) : Bool :=
  let n := c.toNat
  n = 0x20 || n = 0x9 || n = 0xa || n = 0xd || n = 0xb || n = 0xc ||
  n = 0xa0 || n = 0x1680 || (0x2000 <= n && n <= 0x200a) ||
  n = 0x2028 || n = 0x2029 || n = 0x202f || n = 0x205f || n = 0x3000 ||
  n = 0xfeff

/-- JavaScript line terminators (for multiline `^` / `$` and for `.`). -/
def isLineTerm (c : Char) : Bool :=
  let n := c.toNat
  n = 0xa || n = 0xd || n = 0x2028 || n = 0x2029

/-- Strip a literal off the front of a string; `none` when it is not there. -/
def stripPrefixL : List Char → List Char → Option (List Char)
  | [], s => some s
  | _ :: _, [] => none
  | l :: ls, c :: cs => if c = l then stripPrefixL ls cs else none

/-- Does some suffix of `s` satisfy `p`?  (Unanchored regex `test`.) -/
def scanAny (p : List Char → Bool) : List Char → Bool
  | [] => p []
  | c :: cs => p (c :: cs) || scanAny p cs

/-- First suffix of `s` (scanning left to right) on which `f` succeeds,
together with its start index.  (Unanchored first-match `exec`.) -/
def scanIdx (f : List Char → Option α) : Nat → List Char → Option (Nat × α)
  | idx, [] => (f []).map (fun a => (idx, a))
  | idx, c :: cs =>
    match f (c :: cs) with
    | some a => some (idx, a)
    | none => scanIdx f (idx + 1) cs

/-- Scan the suffixes of `s` that sit at a line start (multiline `^`),
left to right; `ls` says whether the current position is a line start. -/
def scanLineStarts (f : List Char → Option α) : Bool → Nat → List Char →
    Option (Nat × α)
  | ls, idx, [] =>
    if ls then (f []).map (fun a => (idx, a)) else none
  | ls, idx, c :: cs =>
    if ls then
      match f (c :: cs) with
      | some a => some (idx, a)
      | none => scanLineStarts f (isLineTerm c) (idx + 1) cs
    else scanLineStarts f (isLineTerm c) (idx + 1) cs

/-- Greedy backtracking for a leading `(\s*)` group: try the candidate
group lengths `k, k-1, …, 0` in that order (JavaScript tries the longest
first) and return the first full-pattern success. -/
def tryKs (f : Nat → Option α) : Nat → Option α
  | 0 => f 0
  | k + 1 =>
    match f (k + 1) with
    | some a => some a
    | none => tryKs f k

/-- Does some suffix of `s` admit `f`, with the remainder then satisfying
`g`?  This is the complete-backtracking reading of a lazy `[\s\S]*?`
between two sub-patterns inside an existence (`test`) check. -/
def scanThen (f : List Char → Option (List Char)) (g : List Char → Bool) :
    List Char → Bool
  | [] => (match f [] with | some r => g r | none => false)
  | c :: cs =>
    (match f (c :: cs) with | some r => g r | none => false) || scanThen f g cs

/-- `pat` occurs as a contiguous subsequence of `s`. -/
def containsSeq (pat s : List Char) : Bool :=
  scanAny (fun t => (stripPrefixL pat t).isSome) s

/-- `s` starts with `pre` (JavaScript `String.prototype.startsWith`). -/
def startsWithL (pre s : List Char) : Bool := (stripPrefixL pre s).isSome

/-- No `'"'` occurs in `l`. -/
def quoteFree (l : List Char) : Bool := l.all (fun c => c ≠ '"')

/-- No `'$'` occurs in `l`. -/
def dollarFree (l : List Char) : Bool := l.all (fun c => c ≠ '$')

/-! ## Data model (`flake.lock`) -/

/-- The `locked` record of a `flake.lock` node.  All fields are optional
strings in the JSON. -/
structure LockedAttrs where
  type : Option String
  rev : Option String
  owner : Option String
  repo : Option String
  host : Option String
  url : Option String
  ref : Option String
deriving DecidableEq, Repr

/-- The `original` record of a `flake.lock` node. -/
structure OriginalAttrs where
  type : Option String
  ref : Option String
  url : Option String
deriving DecidableEq, Repr

/-- A non-root node of `flake.lock` (`FlakeLockNode` in the source). -/
structure FlakeLockNode where
  locked : Option LockedAttrs
  original : Option OriginalAttrs
deriving DecidableEq, Repr

/-- The lock graph (`FlakeLock` in the source): the association list
`nodes` models the JSON object in its key-iteration order, and
`rootInputs` models `nodes.root.inputs`.  The designated `root` node is
kept out of `nodes`; looking up its identifier therefore yields `none`,
which the extractor skips exactly as the source skips a node with no
`locked` section. -/
structure FlakeLock where
  nodes : List (String × FlakeLockNode)
  rootInputs : List (String × String)
deriving DecidableEq, Repr

/-- A pinning candidate (`PinnedInput` in the source). -/
structure PinnedInput where
  name : String
  type : String
  rev : String
  owner : Option String
  repo : Option String
  host : Option String
  url : Option String
  originalUrl : Option String
  originalType : Option String
  originalRef : Option String
deriving DecidableEq, Repr

/-- JavaScript string truthiness for an optional field: present and
non-empty. -/
def tval : Option String → Option String
  | none => none
  | some s => if s = "" then none else some s

/-- `flakeLock.nodes[nodeRef]` (first binding wins; JSON keys are unique). -/
def lookupNode (g : FlakeLock) (ref : String) : Option FlakeLockNode :=
  (g.nodes.find? (fun p => p.1 = ref)).map Prod.snd

/-- Body of the `for` loop of `extractPinnableInputs`: the candidate made
from one `(inputName, nodeRef)` entry of the root inputs, or `none` for
each `continue` in the source. -/
def extractEntry (g : FlakeLock) (e : String × String) : Option PinnedInput :=
  match lookupNode g e.2 with
  | none => none
  | some node =>
    match node.locked with
    | none => none
    | some locked =>
      match tval locked.type, tval locked.rev with
      | some t, some r =>
        if t = "github" || t = "gitlab" then
          match tval locked.owner, tval locked.repo with
          | some _, some _ =>
            some
              { name := e.1, type := t, rev := r,
                owner := locked.owner, repo := locked.repo,
                host :=
                  if t = "gitlab" then some (locked.host.getD "gitlab.com")
                  else none,
                url := none, originalUrl := none,
                originalType := node.original.bind OriginalAttrs.type,
                originalRef :=
                  (node.original.bind OriginalAttrs.ref).orElse
                    (fun _ => locked.ref) }
          | _, _ => none
        else if t = "git" then
          match tval locked.url with
          | some _ =>
            some
              { name := e.1, type := t, rev := r,
                owner := none, repo := none, host := none,
                url := locked.url,
                originalUrl := node.original.bind OriginalAttrs.url,
                originalType := node.original.bind OriginalAttrs.type,
                originalRef :=
                  (node.original.bind OriginalAttrs.ref).orElse
                    (fun _ => locked.ref) }
          | none => none
        else none
      | _, _ => none

/-- `extractPinnableInputs`: iterate the root's input mapping in order,
collecting the candidate of each eligible entry. -/
def extractPinnableInputs (g : FlakeLock) : List PinnedInput :=
  g.rootInputs.filterMap (extractEntry g)

/-! ## Canonical pinned URL and annotation comment -/

/-- The `git+` prefixing step shared by `buildPinnedUrl` and
`buildRenovateComment` for generic-git inputs: prepend `git+` when the
original type tag is `git`, the URL is a bare `http(s)://` URL, and it is
not already prefixed. -/
def gitPlusAdjust (originalType : Option String) (u : String) : String :=
  if originalType = some "git" &&
      (startsWithL "https://".toList u.toList ||
        startsWithL "http://".toList u.toList) &&
      !startsWithL "git+".toList u.toList then
    "git+" ++ u
  else u

/-- `buildPinnedUrl`, with each `throw` of the source modelled as
`Except.error` of the thrown message. -/
def buildPinnedUrlE (i : PinnedInput) : Except String (List Char) :=
  if i.type = "github" then
    match tval i.owner, tval i.repo with
    | some o, some r =>
      .ok ("github:" ++ o ++ "/" ++ r ++ "/" ++ i.rev).toList
    | _, _ => .error ("GitHub input " ++ i.name ++ " missing owner or repo")
  else if i.type = "gitlab" then
    match tval i.owner, tval i.repo with
    | some o, some r =>
      .ok ("gitlab:" ++ o ++ "/" ++ r ++ "/" ++ i.rev).toList
    | _, _ => .error ("GitLab input " ++ i.name ++ " missing owner or repo")
  else if i.type = "git" then
    match i.originalUrl.orElse (fun _ => i.url) with
    | none => .error ("Git input " ++ i.name ++ " missing url")
    | some u =>
      if u = "" then .error ("Git input " ++ i.name ++ " missing url")
      else
        let baseUrl := gitPlusAdjust i.originalType u
        let cleanUrl := baseUrl.toList.takeWhile (fun c => c ≠ '?')
        if cleanUrl = [] then
          .error ("Git input " ++ i.name ++ " has invalid url")
        else .ok (cleanUrl ++ "?rev=".toList ++ i.rev.toList)
  else .error ("Unsupported input type: " ++ i.type)

/-- The `key=value` tokens of `buildRenovateComment`, in source order. -/
def renovateParts (i : PinnedInput) : Except String (List String) :=
  if i.type = "github" then
    match tval i.owner, tval i.repo with
    | some o, some r =>
      .ok (["depName=" ++ o ++ "/" ++ r] ++
        (match tval i.originalRef with
         | some b => ["branch=" ++ b]
         | none => []))
    | _, _ => .error ("GitHub input " ++ i.name ++ " missing owner or repo")
  else if i.type = "gitlab" then
    match tval i.owner, tval i.repo, tval i.host with
    | some o, some r, some h =>
      .ok (["depName=" ++ o ++ "/" ++ r] ++
        (match tval i.originalRef with
         | some b => ["branch=" ++ b]
         | none => []) ++ ["host=" ++ h])
    | _, _, _ =>
      .error ("GitLab input " ++ i.name ++ " missing owner, repo, or host")
  else if i.type = "git" then
    match i.originalUrl.orElse (fun _ => i.url) with
    | none => .error ("Git input " ++ i.name ++ " missing url")
    | some u =>
      if u = "" then .error ("Git input " ++ i.name ++ " missing url")
      else
        .ok (["url=" ++ gitPlusAdjust i.originalType u] ++
          (match tval i.originalRef with
           | some b => ["branch=" ++ b]
           | none => []))
  else .ok []

/-- `buildRenovateComment`: `<indent># <token1> <token2> …`, with each
`throw` modelled as `Except.error`. -/
def buildRenovateCommentE (i : PinnedInput) (indent : List Char) :
    Except String (List Char) :=
  match renovateParts i with
  | .error e => .error e
  | .ok parts => .ok (indent ++ "# ".toList ++ (" ".intercalate parts).toList)

/-! ## The source's regular expressions, as explicit matchers -/

/-- `<name>\.url\s*=\s*"<url>"` at the start of `s` (the "simple format"
alternative of `isAlreadyPinned`; `<name>` and `<url>` are regex-escaped in
the source, hence literal here). -/
def simplePinnedAt (name url : List Char) (s : List Char) : Bool :=
  (do
    let s1 ← stripPrefixL (name ++ ".url".toList) s
    let s2 ← stripPrefixL ['='] (s1.dropWhile isSpaceJS)
    let _ ← stripPrefixL ('"' :: url ++ ['"']) (s2.dropWhile isSpaceJS)
    some ()).isSome

/-- `test` of the simple-format pattern of `isAlreadyPinned`. -/
def containsSimplePinned (name url content : List Char) : Bool :=
  scanAny (simplePinnedAt name url) content

/-- `url\s*=\s*"<url>"` at the start of `s`, returning the remainder. -/
def parseUrlPinned (url : List Char) (s : List Char) : Option (List Char) := do
  let s1 ← stripPrefixL "url".toList s
  let s2 ← stripPrefixL ['='] (s1.dropWhile isSpaceJS)
  stripPrefixL ('"' :: url ++ ['"']) (s2.dropWhile isSpaceJS)

/-- `<name>\s*=\s*\{[\s\S]*?url\s*=\s*"<url>"[\s\S]*?\};` at the start of
`s` (the block-format alternative of `isAlreadyPinned`).  The two lazy
gaps have pure existence semantics under `test`, with full backtracking
over the position of the `url` literal. -/
def blockPinnedAt (name url : List Char) (s : List Char) : Bool :=
  match
    (do
      let s1 ← stripPrefixL name s
      let s2 ← stripPrefixL ['='] (s1.dropWhile isSpaceJS)
      stripPrefixL ['{'] (s2.dropWhile isSpaceJS)) with
  | none => false
  | some s3 => scanThen (parseUrlPinned url) (containsSeq "\x7d;".toList) s3

/-- `test` of the block-format pattern of `isAlreadyPinned`. -/
def containsBlockPinned (name url content : List Char) : Bool :=
  scanAny (blockPinnedAt name url) content

/-- `isAlreadyPinned`; it calls `buildPinnedUrl`, whose `throw`s surface
as `Except.error`. -/
def isAlreadyPinnedE (content : List Char) (i : PinnedInput) :
    Except String Bool := do
  let u ← buildPinnedUrlE i
  pure (containsSimplePinned i.name.toList u content ||
    containsBlockPinned i.name.toList u content)

/-- After the `(\s*)` group: `<name>\.url\s*=.*$`; returns the remainder
after the line-end position of `$`. -/
def simpleRest (name : List Char) (s : List Char) : Option (List Char) := do
  let s1 ← stripPrefixL (name ++ ".url".toList) s
  let s2 ← stripPrefixL ['='] (s1.dropWhile isSpaceJS)
  pure (s2.dropWhile (fun c => !isLineTerm c))

/-- Match `(\s*)<name>\.url\s*=.*$` at the start of `s` (after a `^`
anchor): greedy group-1 lengths are tried longest first.  Returns
`(group-1 length, total match length)`. -/
def simpleLocAt (name : List Char) (s : List Char) : Option (Nat × Nat) :=
  tryKs
    (fun k =>
      match simpleRest name (s.drop k) with
      | some rem => some (k, s.length - rem.length)
      | none => none)
    (s.takeWhile isSpaceJS).length

/-- First match of `simplePattern` = `^(\s*)<name>\.url\s*=.*$` (flags
`gm`) in `content`: `(index, group-1 length, match length)`. -/
def findSimpleLoc (name content : List Char) : Option (Nat × Nat × Nat) :=
  scanLineStarts (simpleLocAt name) true 0 content

/-- The lazy `[\s\S]*?^\s*\};` tail of the block pattern: starting right
after the `{`, find the first line start from which skipping white space
reaches the literal `};`; returns the remainder after the `;`.  `ls` is
whether the current position is a line start. -/
def blockTermSearch : Bool → List Char → Option (List Char)
  | _, [] => none
  | ls, c :: cs =>
    match
      (if ls then stripPrefixL "\x7d;".toList ((c :: cs).dropWhile isSpaceJS)
       else none) with
    | some r => some r
    | none => blockTermSearch (isLineTerm c) cs

/-- After the `(\s*)` group: `<name>\s*=\s*\{[\s\S]*?^\s*\};`; returns the
remainder after the `;`. -/
def blockRest (name : List Char) (s : List Char) : Option (List Char) := do
  let s1 ← stripPrefixL name s
  let s2 ← stripPrefixL ['='] (s1.dropWhile isSpaceJS)
  let s3 ← stripPrefixL ['{'] (s2.dropWhile isSpaceJS)
  blockTermSearch false s3

/-- Match `(\s*)` + `blockRest` at the start of `s`. -/
def blockLocAt (name : List Char) (s : List Char) : Option (Nat × Nat) :=
  tryKs
    (fun k =>
      match blockRest name (s.drop k) with
      | some rem => some (k, s.length - rem.length)
      | none => none)
    (s.takeWhile isSpaceJS).length

/-- First match of `blockPattern` = `^(\s*)<name>\s*=\s*\{[\s\S]*?^\s*\};`
(flags `gm`) in `content`. -/
def findBlockLoc (name content : List Char) : Option (Nat × Nat × Nat) :=
  scanLineStarts (blockLocAt name) true 0 content

/-- Match `(\s*)(url\s*=\s*)"[^"]*";` at the start of `s`; returns
`(group 1, group 2, whole match)`. -/
def matchUrlLineAt (s : List Char) :
    Option (List Char × List Char × List Char) :=
  let g1 := s.takeWhile isSpaceJS
  match stripPrefixL "url".toList (s.dropWhile isSpaceJS) with
  | none => none
  | some s2 =>
    let w2 := s2.takeWhile isSpaceJS
    match stripPrefixL ['='] (s2.dropWhile isSpaceJS) with
    | none => none
    | some s3 =>
      let w3 := s3.takeWhile isSpaceJS
      match stripPrefixL ['"'] (s3.dropWhile isSpaceJS) with
      | none => none
      | some s4 =>
        let nq := s4.takeWhile (fun c => c ≠ '"')
        match stripPrefixL ['"'] (s4.dropWhile (fun c => c ≠ '"')) with
        | none => none
        | some s5 =>
          match stripPrefixL [';'] s5 with
          | none => none
          | some _ =>
            let g2 := "url".toList ++ w2 ++ '=' :: w3
            some (g1, g2, g1 ++ g2 ++ '"' :: nq ++ ['"', ';'])

/-- JavaScript `GetSubstitution` for a replacement string against a match
with two capture groups: `$$`, `$&`, `` $` ``, `$'`, `$1`, `$2`; any other
`$` is literal. -/
def jsSubst (m g1 g2 pre suf : List Char) : List Char → List Char
  | [] => []
  | c :: r =>
    if c = '$' then
      match r with
      | [] => ['$']
      | d :: r2 =>
        if d = '$' then '$' :: jsSubst m g1 g2 pre suf r2
        else if d = '&' then m ++ jsSubst m g1 g2 pre suf r2
        else if d = Char.ofNat 96 then pre ++ jsSubst m g1 g2 pre suf r2
        else if d = '\'' then suf ++ jsSubst m g1 g2 pre suf r2
        else if d = '1' then g1 ++ jsSubst m g1 g2 pre suf r2
        else if d = '2' then g2 ++ jsSubst m g1 g2 pre suf r2
        else '$' :: d :: jsSubst m g1 g2 pre suf r2
    else c :: jsSubst m g1 g2 pre suf r

/-- Global `replace` of `urlLinePattern` by the (fixed) replacement string
`rep`: scan left to right, substitute each match, resume after it.  `full`
and `pos` track the original string and current index for `` $` ``/`$'`.
The `fuel` argument only makes the recursion structural; it never runs out
when it starts at the scanned string's length, since each step consumes at
least one character. -/
def replUrlAux (rep full : List Char) : Nat → Nat → List Char → List Char
  | 0, _, s => s
  | fuel + 1, pos, s =>
    match s with
    | [] => []
    | c :: cs =>
      match matchUrlLineAt (c :: cs) with
      | some (g1, g2, m) =>
        jsSubst m g1 g2 (full.take pos) (full.drop (pos + m.length)) rep ++
          replUrlAux rep full fuel (pos + m.length) (cs.drop (m.length - 1))
      | none => c :: replUrlAux rep full fuel (pos + 1) cs

/-- `blockContent.replace(urlLinePattern, urlReplacement)`. -/
def replUrlAll (rep s : List Char) : List Char :=
  replUrlAux rep s s.length 0 s

/-- Match `(\s*#\s*)renovate:\s+` at the start of `s` (after a `^`
anchor).  Returns `(group 1, match length, whether the match's last
character is a line terminator)`. -/
def matchMigAt (s : List Char) : Option (List Char × Nat × Bool) :=
  let w1 := s.takeWhile isSpaceJS
  match stripPrefixL ['#'] (s.dropWhile isSpaceJS) with
  | none => none
  | some s1 =>
    let w2 := s1.takeWhile isSpaceJS
    match stripPrefixL "renovate:".toList (s1.dropWhile isSpaceJS) with
    | none => none
    | some s2 =>
      let w3 := s2.takeWhile isSpaceJS
      if w3 = [] then none
      else
        some (w1 ++ '#' :: w2,
          w1.length + 1 + w2.length + 9 + w3.length,
          isLineTerm (w3.getLastD ' '))

/-- Global multiline replace of `/^(\s*#\s*)renovate:\s+/gm` by `'$1'`:
each match is replaced by its first capture group.  `fuel` as in
`replUrlAux`. -/
def migAux : Nat → Bool → List Char → List Char
  | 0, _, s => s
  | fuel + 1, ls, s =>
    match s with
    | [] => []
    | c :: cs =>
      if ls then
        match matchMigAt (c :: cs) with
        | some (g1, len, endsLT) =>
          g1 ++ migAux fuel endsLT (cs.drop (len - 1))
        | none => c :: migAux fuel (isLineTerm c) cs
      else c :: migAux fuel (isLineTerm c) cs

/-- The migration pass over the buffer
(`content.replace(/^(\s*#\s*)renovate:\s+/gm, '$1')`). -/
def migrationFix (s : List Char) : List Char := migAux s.length true s

/-! ## The rewriter -/

/-- The body of the candidate loop of `pinFlakeInputs` for one input:
skip when already pinned; otherwise locate the declaration (simple format
first, then block format); rewrite by exact index splicing (simple) or by
a global in-block url-line replace spliced back at the match index
(block); report whether the buffer changed (which is also exactly when the
source emits its "Pinned flake input" log line). -/
def processInput (content : List Char) (i : PinnedInput) :
    Except String (List Char × Bool) :=
  match isAlreadyPinnedE content i with
  | .error e => .error e
  | .ok true => .ok (content, false)
  | .ok false =>
    match findSimpleLoc i.name.toList content with
    | some (p, g1len, mlen) =>
      match buildPinnedUrlE i with
      | .error e => .error e
      | .ok pinned =>
        match buildRenovateCommentE i ((content.drop p).take g1len) with
        | .error e => .error e
        | .ok comment =>
          .ok (content.take p ++
              (comment ++ '\n' :: ((content.drop p).take g1len ++
                i.name.toList ++ ".url = \"".toList ++ pinned ++
                "\";".toList)) ++
              content.drop (p + mlen),
            decide (content.take p ++
              (comment ++ '\n' :: ((content.drop p).take g1len ++
                i.name.toList ++ ".url = \"".toList ++ pinned ++
                "\";".toList)) ++
              content.drop (p + mlen) ≠ content))
    | none =>
      match findBlockLoc i.name.toList content with
      | some (p, _g1len, mlen) =>
        match buildPinnedUrlE i with
        | .error e => .error e
        | .ok pinned =>
          match scanIdx matchUrlLineAt 0 ((content.drop p).take mlen) with
          | some (_q, ug1, _ug2, _um) =>
            match buildRenovateCommentE i ug1 with
            | .error e => .error e
            | .ok comment =>
              .ok (content.take p ++
                  replUrlAll (comment ++ ug1 ++ "url = \"".toList ++
                    pinned ++ "\";".toList) ((content.drop p).take mlen) ++
                  content.drop (p + mlen),
                decide (content.take p ++
                  replUrlAll (comment ++ ug1 ++ "url = \"".toList ++
                    pinned ++ "\";".toList) ((content.drop p).take mlen) ++
                  content.drop (p + mlen) ≠ content))
          | none => .ok (content, false)
      | none => .ok (content, false)

/-- The candidate loop: thread the shared buffer through the inputs in
order, accumulating the `hasChanges` flag. -/
def processInputs (content : List Char) :
    List PinnedInput → Except String (List Char × Bool)
  | [] => .ok (content, false)
  | i :: rest =>
    match processInput content i with
    | .error e => .error e
    | .ok r =>
      match processInputs r.1 rest with
      | .error e => .error e
      | .ok r2 => .ok (r2.1, r.2 || r2.2)

/-- `migrationDeadline` = `2025-12-02T00:00:00Z` in Unix milliseconds. -/
def migrationDeadlineMs : Nat := 1764633600000

/-- The error thrown when the migration shim has expired. -/
def expiredMigrationMsg : String :=
  "Migration code for renovate: prefix removal has expired. " ++
  "Please remove this code block from pinFlakeInputs function."

/-- `pinFlakeInputs`, as a pure function of the current time (Unix ms),
the parsed lock graph, and the `flake.nix` text.  The result carries the
returned `hasChanges` flag, the final buffer, and the file write performed
(`some text` when the buffer is written back, `none` otherwise). -/
def pinFlakeInputsModel (nowMs : Nat) (lock : FlakeLock)
    (flakeNix : List Char) :
    Except String (Bool × List Char × Option (List Char)) :=
  if extractPinnableInputs lock = [] then .ok (false, flakeNix, none)
  else if migrationDeadlineMs < nowMs then .error expiredMigrationMsg
  else
    match processInputs (migrationFix flakeNix)
        (extractPinnableInputs lock) with
    | .error e => .error e
    | .ok (final, ch) =>
      .ok (decide (migrationFix flakeNix ≠ flakeNix) || ch, final,
        if decide (migrationFix flakeNix ≠ flakeNix) || ch then some final
        else none)

/-! ## Specification-side definitions and well-formedness predicates -/

/-- Classifier written after the wording of claim C5: a root entry
contributes exactly one candidate when its node exists, has a locked
section with both `type` and `rev`, and satisfies its kind's field
requirements — github/gitlab require `owner` and `repo`, with `host`
defaulting to `"gitlab.com"` for gitlab when unset; git requires `url`;
any other type is unsupported.  Every other root entry contributes no
candidate. -/
def specClassify (g : FlakeLock) (e : String × String) :
    Option PinnedInput := do
  let node ← lookupNode g e.2
  let locked ← node.locked
  let t ← tval locked.type
  let r ← tval locked.rev
  if t = "github" || t = "gitlab" then do
    let _ ← tval locked.owner
    let _ ← tval locked.repo
    pure
      { name := e.1, type := t, rev := r,
        owner := locked.owner, repo := locked.repo,
        host :=
          if t = "gitlab" then some (locked.host.getD "gitlab.com") else none,
        url := none, originalUrl := none,
        originalType := node.original.bind OriginalAttrs.type,
        originalRef :=
          (node.original.bind OriginalAttrs.ref).orElse (fun _ => locked.ref) }
  else if t = "git" then do
    let _ ← tval locked.url
    pure
      { name := e.1, type := t, rev := r,
        owner := none, repo := none, host := none,
        url := locked.url,
        originalUrl := node.original.bind OriginalAttrs.url,
        originalType := node.original.bind OriginalAttrs.type,
        originalRef :=
          (node.original.bind OriginalAttrs.ref).orElse (fun _ => locked.ref) }
  else none

/-- The extractor with its (absent) exception effects made explicit: the
loop body of the source contains no `throw`, every rejected entry is a
`continue`, so each iteration is a `pure` step. -/
def extractAuxE (g : FlakeLock) :
    List (String × String) → Except String (List PinnedInput)
  | [] => .ok []
  | e :: rest => do
    let hd := extractEntry g e
    let rs ← extractAuxE g rest
    pure (match hd with | some i => i :: rs | none => rs)

/-- The extractor in the `Except` monad (see `extractAuxE`). -/
def extractPinnableInputsE (g : FlakeLock) :
    Except String (List PinnedInput) :=
  extractAuxE g g.rootInputs

/-- Hypotheses under which one rewrite step is provably idempotent: the
input's name contains no `'"'`, and the strings interpolated into the
block-format replacement text contain no `'$'` (so that JavaScript
`$`-substitution leaves the replacement literal). -/
def stepSafe (i : PinnedInput) : Bool :=
  quoteFree i.name.toList &&
  (match buildPinnedUrlE i with
   | .ok u => dollarFree u
   | .error _ => true) &&
  (match renovateParts i with
   | .ok ps => dollarFree (" ".intercalate ps).toList
   | .error _ => true)

/-- A string field that, when present, is non-empty. -/
def optNonempty (o : Option String) : Bool :=
  match o with
  | none => true
  | some s => s ≠ ""

/-- A URL string usable by `buildPinnedUrl`: non-empty with a non-empty
part before any `'?'`. -/
def urlWf (s : String) : Bool :=
  s ≠ "" && (s.toList.headD ' ') ≠ '?'

/-- A URL field that, when present, is usable. -/
def optUrlWf (o : Option String) : Bool :=
  match o with
  | none => true
  | some s => urlWf s

/-- Lock graphs whose optional string fields are usable: a present
`locked.host` is non-empty, and present `locked.url` / `original.url`
fields are non-empty and do not start with `'?'`. -/
def lockFieldsWf (g : FlakeLock) : Bool :=
  g.nodes.all fun e =>
    (match e.2.locked with
     | none => true
     | some l => optNonempty l.host && optUrlWf l.url) &&
    (match e.2.original with
     | none => true
     | some o => optUrlWf o.url)

/-! ## Concrete instances used by counterexamples and witnesses -/

/-- Counterexample text for claim C1: input `a` has two textual
declarations, one of them nested inside input `b`'s block. -/
def cx1T : List Char :=
  "b = \x7b\n a.url = \"q\";\n url = \"w\";\n\x7d;\na.url = \"e\";\n".toList

/-- Candidate `a` of the C1 counterexample. -/
def cx1A : PinnedInput :=
  { name := "a", type := "github", rev := "1", owner := some "x",
    repo := some "y", host := none, url := none, originalUrl := none,
    originalType := none, originalRef := none }

/-- Candidate `b` of the C1 counterexample. -/
def cx1B : PinnedInput :=
  { name := "b", type := "github", rev := "2", owner := some "x",
    repo := some "y", host := none, url := none, originalUrl := none,
    originalType := none, originalRef := none }

/-- The C1 counterexample buffer after one pass. -/
def cx1Mid : List Char :=
  ("b = \x7b\n # depName=x/y\n a.# depName=x/yurl = \"github:x/y/2\";" ++
   "# depName=x/yurl = \"github:x/y/2\";\n\x7d;\na.url = \"e\";\n").toList

/-- The C1 counterexample buffer after two passes. -/
def cx1Fin : List Char :=
  ("b = \x7b\n # depName=x/y\n a.# depName=x/yurl = \"github:x/y/2\";" ++
   "# depName=x/yurl = \"github:x/y/2\";\n\x7d;\n# depName=x/y\n" ++
   "a.url = \"github:x/y/1\";\n").toList

/-- Counterexample text for claim C2: a block whose body also contains a
nested `inputs.nixpkgs.url = …;` attribute line. -/
def cx2T : List Char :=
  ("  dotfiles = \x7b\n    inputs.nixpkgs.url = \"github:a/b/c\";\n" ++
   "    url = \"github:o/r/old\";\n  \x7d;\n").toList

/-- Candidate of the C2 counterexample. -/
def cx2I : PinnedInput :=
  { name := "dotfiles", type := "github", rev := "new", owner := some "o",
    repo := some "r", host := none, url := none, originalUrl := none,
    originalType := none, originalRef := none }

/-- Buffer produced by processing the C2 counterexample: both url-pattern
matches inside the block, including the nested
`inputs.nixpkgs.url = …;` line, were replaced. -/
def cx2Out : List Char :=
  ("  dotfiles = \x7b\n    inputs.nixpkgs.# depName=o/rurl = " ++
   "\"github:o/r/new\";# depName=o/rurl = \"github:o/r/new\";\n  \x7d;\n").toList

/-- A lock graph with no pinnable candidates (for claim C8's
counterexample). -/
def cx8Lock : FlakeLock := { nodes := [], rootInputs := [] }

/-- A locked section with an empty-string `host` (for claim C10's
counterexample). -/
def cx10Locked : LockedAttrs :=
  { type := some "gitlab", rev := some "r", owner := some "o",
    repo := some "p", host := some "", url := none, ref := none }

/-- A lock graph whose single root input is a gitlab entry carrying
`host = ""` (for claim C10's counterexample). -/
def cx10Lock : FlakeLock :=
  { nodes := [("n", { locked := some cx10Locked, original := none })],
    rootInputs := [("x", "n")] }

/-- The candidate the extractor produces from `cx10Lock`. -/
def cx10Input : PinnedInput :=
  { name := "x", type := "gitlab", rev := "r", owner := some "o",
    repo := some "p", host := some "", url := none, originalUrl := none,
    originalType := none, originalRef := none }

/-- Witness text for claim C6: input `x` is already pinned inline. -/
def w6T : List Char := "x.url = \"github:o/r/v\";".toList

/-- Witness candidate for claim C6. -/
def w6I : PinnedInput :=
  { name := "x", type := "github", rev := "v", owner := some "o",
    repo := some "r", host := none, url := none, originalUrl := none,
    originalType := none, originalRef := none }

/-- Witness text for claim C1's amended theorem. -/
def w1T : List Char := "a.url = \"old\";\n".toList

/-- Buffer after one rewrite step of `cx1A` on `w1T`. -/
def w1Out : List Char :=
  "# depName=x/y\na.url = \"github:x/y/1\";\n".toList

/-- Witness text for claim C2's amended theorem: a block with exactly one
url-line match. -/
def w2T : List Char := "  d = \x7b\n    url = \"u\";\n  \x7d;\n".toList

/-- Witness candidate for claim C2. -/
def w2I : PinnedInput :=
  { name := "d", type := "github", rev := "v", owner := some "o",
    repo := some "r", host := none, url := none, originalUrl := none,
    originalType := none, originalRef := none }

/-- Witness candidate for claim C3 (the spec's generic-git example). -/
def w3I : PinnedInput :=
  { name := "dep", type := "git", rev := "deadbeef", owner := none,
    repo := none, host := none, url := some "https://ignored.example/x",
    originalUrl := some "git+https://host/path", originalType := some "git",
    originalRef := none }

/-- Witness flake.nix text for claim C4. -/
def w4T : List Char := "a.url = \"x\";\n".toList

/-- Witness locked section for claim C4. -/
def w4Locked : LockedAttrs :=
  { type := some "github", rev := some "abc", owner := some "o",
    repo := some "rp", host := none, url := none, ref := none }

/-- Witness lock graph for claim C4 (one pinnable github input). -/
def w4Lock : FlakeLock :=
  { nodes := [("pn", { locked := some w4Locked, original := none })],
    rootInputs := [("a", "pn")] }

/-- Final buffer of the C4 witness run. -/
def w4Out : List Char :=
  "# depName=o/rp\na.url = \"github:o/rp/abc\";\n".toList

/-- Witness candidate for claim C9 (gitlab with a branch and host). -/
def w9I : PinnedInput :=
  { name := "g", type := "gitlab", rev := "v", owner := some "o",
    repo := some "r", host := some "gitlab.com", url := none,
    originalUrl := none, originalType := some "gitlab",
    originalRef := some "main" }

/-- Witness locked section for claim C10 (well-formed gitlab entry with
`host` unset). -/
def w10Locked : LockedAttrs :=
  { type := some "gitlab", rev := some "r", owner := some "o",
    repo := some "p", host := none, url := none, ref := none }

/-- Witness lock graph for claim C10's amended theorem. -/
def w10Lock : FlakeLock :=
  { nodes := [("n", { locked := some w10Locked, original := none })],
    rootInputs := [("x", "n")] }

/-- The candidate the extractor produces from `w10Lock`. -/
def w10Input : PinnedInput :=
  { name := "x", type := "gitlab", rev := "r", owner := some "o",
    repo := some "p", host := some "gitlab.com", url := none,
    originalUrl := none, originalType := none, originalRef := none }

/-- Buffer produced by the C2 witness rewrite. -/
def w2Out : List Char :=
  "  d = \x7b\n    # depName=o/r\n    url = \"github:o/r/v\";\n  \x7d;\n".toList

deriving instance DecidableEq for Except

/-! ## Helper lemmas -/

theorem stripPrefixL_self_append (l r : List Char) :
    stripPrefixL l (l ++ r) = some r := by
  induction l with
  | nil => rfl
  | cons c cs ih => simp [stripPrefixL, ih]

theorem stripPrefixL_eq_append {l s r : List Char}
    (h : stripPrefixL l s = some r) : s = l ++ r := by
  induction l generalizing s with
  | nil =>
    simp only [stripPrefixL, Option.some.injEq] at h
    simp [h]
  | cons c cs ih =>
    cases s with
    | nil => simp [stripPrefixL] at h
    | cons a as =>
      simp only [stripPrefixL] at h
      split at h
      · next heq => subst heq; simp [ih h]
      · exact absurd h (by simp)

theorem scanAny_self {p : List Char → Bool} {x : List Char}
    (h : p x = true) : scanAny p x = true := by
  cases x with
  | nil => simpa [scanAny] using h
  | cons c cs => simp [scanAny, h]

theorem scanAny_append {p : List Char → Bool} (a : List Char)
    {x : List Char} (h : p x = true) : scanAny p (a ++ x) = true := by
  induction a with
  | nil => simpa using scanAny_self h
  | cons c cs ih => simp [scanAny, ih]

theorem scanThen_self {f : List Char → Option (List Char)}
    {g : List Char → Bool} {x r : List Char}
    (hf : f x = some r) (hg : g r = true) : scanThen f g x = true := by
  cases x with
  | nil => simp [scanThen, hf, hg]
  | cons c cs => simp [scanThen, hf, hg]

theorem scanThen_append {f : List Char → Option (List Char)}
    {g : List Char → Bool} (a : List Char) {x r : List Char}
    (hf : f x = some r) (hg : g r = true) : scanThen f g (a ++ x) = true := by
  induction a with
  | nil => simpa using scanThen_self hf hg
  | cons c cs ih => simp [scanThen, ih]

theorem containsSeq_middle (pat a b : List Char) :
    containsSeq pat (a ++ (pat ++ b)) = true := by
  unfold containsSeq
  exact scanAny_append a (by simp [stripPrefixL_self_append])

theorem dropWhile_append_cons {p : Char → Bool} {w : List Char} {c : Char}
    (r : List Char) (hw : w.all p = true) (hc : p c = false) :
    (w ++ c :: r).dropWhile p = c :: r := by
  induction w with
  | nil => simp [List.dropWhile, hc]
  | cons a as ih =>
    simp only [List.all_cons, Bool.and_eq_true] at hw
    simp [List.dropWhile, hw.1, ih hw.2]

/-! ## C6: already-pinned no-op -/

/-- **C6**: if the buffer already contains the input's exact canonical
pinned URL (inline or inside the input's block), processing that input
returns the buffer unchanged with a `false` changed flag — and the source
logs "Pinned flake input" exactly when that flag is set, so no log event
is emitted either. -/
theorem already_pinned_step_noop (content : List Char) (i : PinnedInput)
    (h : isAlreadyPinnedE content i = .ok true) :
    processInput content i = .ok (content, false) := by
  unfold processInput
  rw [h]

/-- Witness for `already_pinned_step_noop` (claim C6) at a concrete
already-pinned buffer. -/
theorem already_pinned_step_noop_witness :
    processInput w6T w6I = .ok (w6T, false) :=
  already_pinned_step_noop w6T w6I (by decide)

/-! ## C7: the extractor never throws -/

/-- **C7**: for every lock-graph value, the extractor — with its (absent)
exception effects made explicit — returns `ok` of the filtered candidate
list; malformed or partially-specified entries are skipped, never turned
into errors. -/
theorem extractor_never_throws (g : FlakeLock) :
    extractPinnableInputsE g = .ok (extractPinnableInputs g) := by
  unfold extractPinnableInputsE extractPinnableInputs
  induction g.rootInputs with
  | nil => rfl
  | cons e rest ih =>
    simp only [extractAuxE, List.filterMap_cons, ih]
    cases extractEntry g e <;> rfl

/-! ## C3: canonical pinned identifier for generic-git inputs -/

/-- **C3**: for a git-kind candidate, the canonical URL is built from
`originalUrl` when present, else the locked `url`; `git+` is prepended
exactly when the original type tag is `git`, the URL starts with
`http://` or `https://`, and it does not already start with `git+`; any
existing query string is stripped; and `?rev=<revision>` is appended. -/
theorem pinned_url_git (i : PinnedInput) (u : String)
    (ht : i.type = "git")
    (hu : i.originalUrl.orElse (fun _ => i.url) = some u)
    (hne : u ≠ "")
    (hclean :
      (gitPlusAdjust i.originalType u).toList.takeWhile (fun c => c ≠ '?') ≠
        []) :
    buildPinnedUrlE i =
      .ok
        ((gitPlusAdjust i.originalType u).toList.takeWhile (fun c => c ≠ '?')
          ++ "?rev=".toList ++ i.rev.toList) ∧
    (gitPlusAdjust i.originalType u = "git+" ++ u ↔
      (i.originalType = some "git" ∧
        (startsWithL "https://".toList u.toList ∨
          startsWithL "http://".toList u.toList) ∧
        ¬ startsWithL "git+".toList u.toList)) := by
  constructor
  · unfold buildPinnedUrlE
    rw [ht, if_neg (by decide : ¬ ("git" = "github")),
      if_neg (by decide : ¬ ("git" = "gitlab")), if_pos rfl, hu]
    simp only [hne, if_false, ite_false]
    exact if_neg hclean
  · unfold gitPlusAdjust
    split
    · next hc =>
      simp only [Bool.and_eq_true, Bool.or_eq_true, Bool.not_eq_true',
        decide_eq_true_eq] at hc
      have hp : i.originalType = some "git" ∧
          (startsWithL "https://".toList u.toList ∨
            startsWithL "http://".toList u.toList) ∧
          ¬ startsWithL "git+".toList u.toList :=
        ⟨hc.1.1, hc.1.2, by rw [hc.2]; exact Bool.false_ne_true⟩
      exact iff_of_true rfl hp
    · next hc =>
      have hp : ¬ (i.originalType = some "git" ∧
          (startsWithL "https://".toList u.toList ∨
            startsWithL "http://".toList u.toList) ∧
          ¬ startsWithL "git+".toList u.toList) := by
        intro hx
        apply hc
        simp only [Bool.and_eq_true, Bool.or_eq_true, Bool.not_eq_true',
          decide_eq_true_eq]
        exact ⟨⟨hx.1, hx.2.1⟩, by simpa using hx.2.2⟩
      constructor
      · intro heq
        exfalso
        have hlen : u.length = ("git+" ++ u).length :=
          congrArg String.length heq
        rw [String.length_append] at hlen
        have h0 : "git+".length = 0 := by omega
        exact absurd h0 (by decide)
      · intro hx
        exact absurd hx hp

/-- Witness for `pinned_url_git` (claim C3): the spec's generic-git
example yields `git+https://host/path?rev=deadbeef`. -/
theorem pinned_url_git_witness :
    buildPinnedUrlE w3I = .ok "git+https://host/path?rev=deadbeef".toList :=
  ((pinned_url_git w3I "git+https://host/path" rfl rfl (by decide)
    (by decide)).1).trans (by decide)

/-! ## C9: annotation line format -/

/-- **C9**: the generated annotation is `<indent># ` followed by
space-separated `key=value` tokens in fixed order per kind — github:
`depName=<owner>/<repo>` then optionally `branch=<originalRef>`; gitlab:
`depName=<owner>/<repo>` then optionally `branch=<originalRef>` then
`host=<host>`; git: `url=<possiblyPrefixedUrl>` then optionally
`branch=<originalRef>` — with the branch token present exactly when
`originalRef` is set (present and non-empty). -/
theorem renovate_comment_format (i : PinnedInput) (ind : List Char) :
    (∀ o r, i.type = "github" → tval i.owner = some o →
      tval i.repo = some r →
      buildRenovateCommentE i ind = .ok (ind ++ "# ".toList ++
        (" ".intercalate (["depName=" ++ o ++ "/" ++ r] ++
          (match tval i.originalRef with
           | some b => ["branch=" ++ b]
           | none => []))).toList)) ∧
    (∀ o r h, i.type = "gitlab" → tval i.owner = some o →
      tval i.repo = some r → tval i.host = some h →
      buildRenovateCommentE i ind = .ok (ind ++ "# ".toList ++
        (" ".intercalate (["depName=" ++ o ++ "/" ++ r] ++
          (match tval i.originalRef with
           | some b => ["branch=" ++ b]
           | none => []) ++ ["host=" ++ h])).toList)) ∧
    (∀ u, i.type = "git" → i.originalUrl.orElse (fun _ => i.url) = some u →
      u ≠ "" →
      buildRenovateCommentE i ind = .ok (ind ++ "# ".toList ++
        (" ".intercalate (["url=" ++ gitPlusAdjust i.originalType u] ++
          (match tval i.originalRef with
           | some b => ["branch=" ++ b]
           | none => []))).toList)) := by
  refine ⟨?_, ?_, ?_⟩
  · intro o r ht ho hr
    unfold buildRenovateCommentE renovateParts
    rw [ht, ho, hr]
    rfl
  · intro o r h ht ho hr hh
    unfold buildRenovateCommentE renovateParts
    rw [ht, ho, hr, hh]
    rfl
  · intro u ht hu hne
    unfold buildRenovateCommentE renovateParts
    rw [ht, hu]
    simp only [hne, ite_false, if_false]
    rfl

/-- Witness for `renovate_comment_format` (claim C9) at a gitlab input
with a branch and host. -/
theorem renovate_comment_format_witness :
    buildRenovateCommentE w9I [] =
      .ok "# depName=o/r branch=main host=gitlab.com".toList :=
  ((renovate_comment_format w9I []).2.1 "o" "r" "gitlab.com" rfl rfl rfl
    rfl).trans (by decide)

/-! ## C4: orchestration contract -/

/-- **C4**: `pinFlakeInputs` returns `false` with no declaration-file
write when extraction yields zero candidates; otherwise it runs the
migration pass then the candidates in extraction order over one shared
buffer, writes the final buffer back exactly when some pass changed it,
and returns that changed flag. -/
theorem pin_orchestration (nowMs : Nat) (lock : FlakeLock)
    (content : List Char) :
    (extractPinnableInputs lock = [] →
      pinFlakeInputsModel nowMs lock content = .ok (false, content, none)) ∧
    (∀ c f w, pinFlakeInputsModel nowMs lock content = .ok (c, f, w) →
      (w = if c then some f else none) ∧
      (extractPinnableInputs lock ≠ [] →
        ∃ pc, processInputs (migrationFix content)
            (extractPinnableInputs lock) = .ok (f, pc) ∧
          c = (decide (migrationFix content ≠ content) || pc))) := by
  constructor
  · intro hz
    unfold pinFlakeInputsModel
    rw [if_pos hz]
  · intro c f w h
    unfold pinFlakeInputsModel at h
    by_cases hz : extractPinnableInputs lock = []
    · rw [if_pos hz] at h
      injection h with h1
      injection h1 with hc h2
      injection h2 with hf hw
      subst hc; subst hf; subst hw
      exact ⟨rfl, fun hne => absurd hz hne⟩
    · rw [if_neg hz] at h
      by_cases hd : migrationDeadlineMs < nowMs
      · rw [if_pos hd] at h
        exact absurd h (by simp)
      · rw [if_neg hd] at h
        rcases hp : processInputs (migrationFix content)
            (extractPinnableInputs lock) with e | ⟨f', pc⟩
        · rw [hp] at h
          exact absurd h (by simp)
        · rw [hp] at h
          simp only [Except.ok.injEq, Prod.mk.injEq] at h
          obtain ⟨hc, hf, hw⟩ := h
          subst hc; subst hf; subst hw
          exact ⟨rfl, fun _ => ⟨pc, rfl, rfl⟩⟩

/-- Witness for `pin_orchestration` (claim C4) on a one-candidate run. -/
theorem pin_orchestration_witness :
    (some w4Out = if true then some w4Out else none) ∧
    (extractPinnableInputs w4Lock ≠ [] →
      ∃ pc, processInputs (migrationFix w4T) (extractPinnableInputs w4Lock) =
          .ok (w4Out, pc) ∧
        true = (decide (migrationFix w4T ≠ w4T) || pc)) :=
  (pin_orchestration migrationDeadlineMs w4Lock w4T).2 true w4Out
    (some w4Out) (by decide)

/-! ## C8: time-boxed migration shim -/

/-- Counterexample to **C8** as stated: run after the cutoff date with
zero candidates, `pinFlakeInputs` returns `false` without throwing —
the zero-candidate early return precedes the cutoff check. -/
theorem migration_cutoff_counterexample :
    migrationDeadlineMs < migrationDeadlineMs + 1 ∧
    pinFlakeInputsModel (migrationDeadlineMs + 1) cx8Lock "x".toList =
      .ok (false, "x".toList, none) :=
  ⟨by omega, by rfl⟩

/-- **C8 (amended)**: when extraction yields at least one candidate,
running after the cutoff throws the fatal migration error before
processing any candidate, and running on or before the cutoff first
applies the global `renovate:`-prefix removal, counting it toward the
changed result if it altered the buffer. -/
theorem migration_shim (nowMs : Nat) (lock : FlakeLock)
    (content : List Char) (hne : extractPinnableInputs lock ≠ []) :
    (migrationDeadlineMs < nowMs →
      pinFlakeInputsModel nowMs lock content = .error expiredMigrationMsg) ∧
    (nowMs ≤ migrationDeadlineMs →
      pinFlakeInputsModel nowMs lock content =
        match processInputs (migrationFix content)
            (extractPinnableInputs lock) with
        | .error e => .error e
        | .ok (f, pc) =>
          .ok (decide (migrationFix content ≠ content) || pc, f,
            if decide (migrationFix content ≠ content) || pc then some f
            else none)) := by
  constructor
  · intro hd
    unfold pinFlakeInputsModel
    rw [if_neg hne, if_pos hd]
  · intro hd
    unfold pinFlakeInputsModel
    rw [if_neg hne, if_neg (by omega : ¬ migrationDeadlineMs < nowMs)]

/-- Witness for `migration_shim` (claim C8) after the cutoff with one
candidate. -/
theorem migration_shim_witness :
    pinFlakeInputsModel (migrationDeadlineMs + 1) w4Lock w4T =
      .error expiredMigrationMsg :=
  (migration_shim (migrationDeadlineMs + 1) w4Lock w4T (by decide)).1
    (by omega)

/-! ## C1: idempotence of the pinning pass -/

/-- Counterexample to **C1** as stated: with input `a` declared twice
(once inside input `b`'s block and once at top level), the first pass pins
`a` inside the block and then garbles that line while rewriting `b`'s
block, so the second pass finds the other `a.url` declaration unpinned and
rewrites it — the second application mutates the buffer. -/
theorem pin_twice_differs_counterexample :
    processInputs cx1T [cx1A, cx1B] = .ok (cx1Mid, true) ∧
    processInputs cx1Mid [cx1A, cx1B] = .ok (cx1Fin, true) ∧
    cx1Fin ≠ cx1Mid :=
  ⟨by decide, by decide, by decide⟩

/-! ## C2: block-shape rewrite -/

/-- Counterexample to **C2** as stated: in a block whose body also
contains a nested `inputs.nixpkgs.url = "…";` line, the rewrite replaces
*every* url-line match inside the block (the source uses a global regex
`replace` on the block), so the nested line is not left byte-identical. -/
theorem block_rewrite_counterexample :
    processInput cx2T cx2I = .ok (cx2Out, true) ∧
    containsSeq "inputs.nixpkgs.url".toList cx2T = true ∧
    containsSeq "inputs.nixpkgs.url".toList cx2Out = false :=
  ⟨by decide, by decide, by decide⟩

/-! ## C5: extraction filtering -/

/-- **C5**: `extractPinnableInputs` returns, in the iteration order of the
root's input mapping, exactly one candidate per root input that satisfies
the claim's conditions (node exists, locked with both type and rev, kind
field requirements with the gitlab host default) — i.e. it equals
`filterMap` of the specification-side classifier `specClassify`; every
other root input contributes no candidate. -/
theorem extract_matches_spec (g : FlakeLock) :
    extractPinnableInputs g = g.rootInputs.filterMap (specClassify g) := by
  unfold extractPinnableInputs
  have h : ∀ e, extractEntry g e = specClassify g e := by
    intro e
    unfold extractEntry specClassify
    cases hn : lookupNode g e.2 with
    | none => rfl
    | some node =>
      simp only [Option.bind_eq_bind, Option.some_bind]
      cases hl : node.locked with
      | none => rfl
      | some locked =>
        simp only [Option.some_bind]
        cases ht : tval locked.type with
        | none =>
          cases hr : tval locked.rev with
          | none => rfl
          | some r => rfl
        | some t =>
          cases hr : tval locked.rev with
          | none => rfl
          | some r =>
            simp only [Option.some_bind]
            by_cases h1 : (t = "github" || t = "gitlab") = true
            · rw [if_pos h1, if_pos h1]
              cases ho : tval locked.owner with
              | none =>
                cases hrp : tval locked.repo with
                | none => rfl
                | some rp => rfl
              | some o =>
                cases hrp : tval locked.repo with
                | none => rfl
                | some rp => rfl
            · rw [if_neg h1, if_neg h1]
              by_cases h2 : t = "git"
              · rw [if_pos h2, if_pos h2]
                cases hu2 : tval locked.url with
                | none => rfl
                | some u2 => rfl
              · rw [if_neg h2, if_neg h2]
  exact List.filterMap_congr (fun e _ => h e)

/-! ## C10: reachability of the missing-field error branches -/

/-- Counterexample to **C10** as stated: a gitlab lock entry with an
empty-string `host` passes the extractor (`?? 'gitlab.com'` replaces only
a *missing* host, and the owner/repo truthiness guards do not cover
`host`), producing a candidate on which `buildRenovateComment`'s
missing-field branch does throw. -/
theorem extract_comment_throws_counterexample :
    extractPinnableInputs cx10Lock = [cx10Input] ∧
    buildRenovateCommentE cx10Input [] =
      .error "GitLab input x missing owner, repo, or host" :=
  ⟨by decide, by decide⟩

theorem tval_eq_some {o : Option String} {v : String} (h : tval o = some v) :
    o = some v ∧ v ≠ "" := by
  cases o with
  | none => simp [tval] at h
  | some s =>
    by_cases hs : s = ""
    · simp only [tval, if_pos hs] at h
      exact absurd h (by simp)
    · simp only [tval, if_neg hs] at h
      injection h with h
      subst h
      exact ⟨rfl, hs⟩

theorem lookupNode_wf {g : FlakeLock} {r : String} {node : FlakeLockNode}
    (hg : lockFieldsWf g = true) (h : lookupNode g r = some node) :
    (match node.locked with
     | none => true
     | some l => optNonempty l.host && optUrlWf l.url) = true ∧
    (match node.original with
     | none => true
     | some o => optUrlWf o.url) = true := by
  unfold lookupNode at h
  cases hf : g.nodes.find? (fun p => p.1 = r) with
  | none => rw [hf] at h; exact absurd h (by simp)
  | some p =>
    rw [hf] at h
    simp only [Option.map_some', Option.some.injEq] at h
    have hmem := List.mem_of_find?_eq_some hf
    unfold lockFieldsWf at hg
    rw [List.all_eq_true] at hg
    have hp := hg p hmem
    rw [h] at hp
    rw [Bool.and_eq_true] at hp
    exact hp

theorem urlWf_clean_ne {b : String} (hb : urlWf b = true)
    (ot : Option String) :
    (gitPlusAdjust ot b).toList.takeWhile (fun c => c ≠ '?') ≠ [] := by
  unfold urlWf at hb
  rw [Bool.and_eq_true] at hb
  obtain ⟨hb1, hb2⟩ := hb
  rw [decide_eq_true_eq] at hb2
  unfold gitPlusAdjust
  split
  · rw [show ("git+" ++ b).toList = 'g' :: 'i' :: 't' :: '+' :: b.toList by
      show ("git+" ++ b).data = _
      rw [String.data_append]
      rfl]
    simp [List.takeWhile]
  · cases hbl : b.toList with
    | nil =>
      exfalso
      have hb0 : b = "" := by
        cases b with
        | mk l =>
          have hl0 : l = [] := hbl
          rw [hl0]
      rw [decide_eq_true_eq] at hb1
      exact hb1 hb0
    | cons c cs =>
      have hc : c ≠ '?' := by
        rw [hbl] at hb2
        simpa using hb2
      simp [List.takeWhile, hc]

/-- **C10 (amended)**: on extractor output from a lock graph whose
optional string fields are usable (`lockFieldsWf`: a present `host` is
non-empty; present `locked.url` / `original.url` are non-empty and do not
start with `'?'`), neither `buildPinnedUrl` nor `buildRenovateComment`
throws.  Without that proviso the error branches are reachable: an
empty-string gitlab `host` (see the counterexample), an empty-string
`original.url`, or a url whose part before `'?'` is empty each produce a
candidate on which one of the two functions throws. -/
theorem extract_output_no_throw (g : FlakeLock)
    (hg : lockFieldsWf g = true) :
    ∀ i ∈ extractPinnableInputs g,
      (buildPinnedUrlE i).isOk = true ∧
      (∀ ind, (buildRenovateCommentE i ind).isOk = true) := by
  intro i hi
  unfold extractPinnableInputs at hi
  rw [List.mem_filterMap] at hi
  obtain ⟨e, _he, hee⟩ := hi
  unfold extractEntry at hee
  cases hn : lookupNode g e.2 with
  | none => rw [hn] at hee; simp at hee
  | some node =>
    rw [hn] at hee
    dsimp only at hee
    have hwf := lookupNode_wf hg hn
    cases hl : node.locked with
    | none => rw [hl] at hee; simp at hee
    | some locked =>
      rw [hl] at hee
      rw [hl] at hwf
      dsimp only at hee hwf
      obtain ⟨hwfl, hwfo⟩ := hwf
      rw [Bool.and_eq_true] at hwfl
      cases ht : tval locked.type with
      | none =>
        rw [ht] at hee
        cases hr : tval locked.rev with
        | none => rw [hr] at hee; simp at hee
        | some r => rw [hr] at hee; simp at hee
      | some t =>
        rw [ht] at hee
        cases hr : tval locked.rev with
        | none => rw [hr] at hee; simp at hee
        | some r =>
          rw [hr] at hee
          dsimp only at hee
          by_cases h1 : (t = "github" || t = "gitlab") = true
          · rw [if_pos h1] at hee
            cases ho : tval locked.owner with
            | none =>
              rw [ho] at hee
              cases hrp : tval locked.repo with
              | none => rw [hrp] at hee; simp at hee
              | some rp => rw [hrp] at hee; simp at hee
            | some o =>
              rw [ho] at hee
              cases hrp : tval locked.repo with
              | none => rw [hrp] at hee; simp at hee
              | some rp =>
                rw [hrp] at hee
                dsimp only at hee
                injection hee with hee
                rw [Bool.or_eq_true, decide_eq_true_eq,
                  decide_eq_true_eq] at h1
                have hhostne : locked.host.getD "gitlab.com" ≠ "" := by
                  cases hh : locked.host with
                  | none => simp
                  | some hv =>
                    rw [hh] at hwfl
                    have hv1 := hwfl.1
                    simp only [optNonempty] at hv1
                    simpa using hv1
                rcases h1 with h1 | h1
                · subst h1
                  subst hee
                  constructor
                  · unfold buildPinnedUrlE
                    dsimp only
                    rw [if_pos rfl, ho, hrp]
                    rfl
                  · intro ind
                    unfold buildRenovateCommentE renovateParts
                    dsimp only
                    rw [if_pos rfl, ho, hrp]
                    rfl
                · subst h1
                  subst hee
                  constructor
                  · unfold buildPinnedUrlE
                    dsimp only
                    rw [if_neg (by decide), if_pos rfl, ho, hrp]
                    rfl
                  · intro ind
                    unfold buildRenovateCommentE renovateParts
                    dsimp only
                    rw [if_neg (by decide), if_pos rfl, ho, hrp,
                      show (if ("gitlab" : String) = "gitlab" then
                          some (locked.host.getD "gitlab.com")
                        else none) = some (locked.host.getD "gitlab.com")
                        from if_pos rfl,
                      show tval (some (locked.host.getD "gitlab.com")) =
                        some (locked.host.getD "gitlab.com") by
                          simp only [tval, if_neg hhostne]]
                    rfl
          · rw [if_neg h1] at hee
            by_cases h2 : t = "git"
            · rw [if_pos h2] at hee
              cases hu : tval locked.url with
              | none => rw [hu] at hee; simp at hee
              | some u0 =>
                rw [hu] at hee
                dsimp only at hee
                injection hee with hee
                subst h2
                obtain ⟨hu1, _hu2⟩ := tval_eq_some hu
                have hbase : ∃ b,
                    (node.original.bind OriginalAttrs.url).orElse
                      (fun _ => locked.url) = some b ∧ urlWf b = true := by
                  cases hor : node.original with
                  | none =>
                    refine ⟨u0, by simp [Option.orElse, hor, hu1], ?_⟩
                    rw [hu1] at hwfl
                    simpa [optUrlWf] using hwfl.2
                  | some orig =>
                    cases hou : orig.url with
                    | none =>
                      refine ⟨u0,
                        by simp [Option.orElse, hor, hou, hu1], ?_⟩
                      rw [hu1] at hwfl
                      simpa [optUrlWf] using hwfl.2
                    | some ou =>
                      refine ⟨ou, by simp [Option.orElse, hor, hou], ?_⟩
                      rw [hor] at hwfo
                      dsimp only at hwfo
                      rw [hou] at hwfo
                      simpa [optUrlWf] using hwfo
                obtain ⟨b, hb, hbwf⟩ := hbase
                have hbne : b ≠ "" := by
                  unfold urlWf at hbwf
                  rw [Bool.and_eq_true] at hbwf
                  simpa using hbwf.1
                subst hee
                constructor
                · unfold buildPinnedUrlE
                  dsimp only
                  rw [if_neg (by decide), if_neg (by decide), if_pos rfl,
                    hb]
                  dsimp only
                  rw [if_neg hbne,
                    if_neg (urlWf_clean_ne hbwf
                      (node.original.bind OriginalAttrs.type))]
                  rfl
                · intro ind
                  unfold buildRenovateCommentE renovateParts
                  dsimp only
                  rw [if_neg (by decide), if_neg (by decide), if_pos rfl,
                    hb]
                  dsimp only
                  rw [if_neg hbne]
                  rfl
            · rw [if_neg h2] at hee
              simp at hee

/-- Witness for `extract_output_no_throw` (claim C10) on a well-formed
gitlab entry. -/
theorem extract_output_no_throw_witness :
    (buildPinnedUrlE w10Input).isOk = true ∧
    (∀ ind, (buildRenovateCommentE w10Input ind).isOk = true) :=
  extract_output_no_throw w10Lock (by decide) w10Input (by decide)

theorem replUrlAux_nil (rep full : List Char) (fuel pos : Nat) :
    replUrlAux rep full fuel pos [] = [] := by
  cases fuel <;> rfl

theorem replUrlAux_zero (rep full : List Char) (pos : Nat) (s : List Char) :
    replUrlAux rep full 0 pos s = s := rfl

theorem replUrlAux_cons (rep full : List Char) (fuel pos : Nat) (c : Char)
    (cs : List Char) :
    replUrlAux rep full (fuel + 1) pos (c :: cs) =
      match matchUrlLineAt (c :: cs) with
      | some (g1, g2, m) =>
        jsSubst m g1 g2 (full.take pos) (full.drop (pos + m.length)) rep ++
          replUrlAux rep full fuel (pos + m.length) (cs.drop (m.length - 1))
      | none => c :: replUrlAux rep full fuel (pos + 1) cs := rfl

theorem replUrlAux_match (rep full : List Char) (fuel pos : Nat) (c : Char)
    (cs g1 g2 m : List Char)
    (h : matchUrlLineAt (c :: cs) = some (g1, g2, m)) :
    replUrlAux rep full (fuel + 1) pos (c :: cs) =
      jsSubst m g1 g2 (full.take pos) (full.drop (pos + m.length)) rep ++
        replUrlAux rep full fuel (pos + m.length) (cs.drop (m.length - 1)) := by
  rw [replUrlAux_cons, h]

theorem replUrlAux_nomatch (rep full : List Char) (fuel pos : Nat)
    (c : Char) (cs : List Char) (h : matchUrlLineAt (c :: cs) = none) :
    replUrlAux rep full (fuel + 1) pos (c :: cs) =
      c :: replUrlAux rep full fuel (pos + 1) cs := by
  rw [replUrlAux_cons, h]

theorem jsSubst_dollarFree (m g1 g2 pre suf : List Char) :
    ∀ rep : List Char, dollarFree rep = true →
      jsSubst m g1 g2 pre suf rep = rep := by
  intro rep
  induction rep with
  | nil => intro _; rfl
  | cons c r ih =>
    intro hd
    unfold dollarFree at hd
    rw [List.all_cons, Bool.and_eq_true] at hd
    have hc : c ≠ '$' := by simpa using hd.1
    unfold jsSubst
    rw [if_neg hc]
    rw [ih hd.2]

theorem all_takeWhile_self (p : Char → Bool) (l : List Char) :
    (l.takeWhile p).all p = true := by
  induction l with
  | nil => rfl
  | cons c cs ih =>
    unfold List.takeWhile
    cases hc : p c with
    | false => rfl
    | true => simp [List.all_cons, hc, ih]

theorem matchUrlLineAt_inv {s g1 g2 m : List Char}
    (h : matchUrlLineAt s = some (g1, g2, m)) :
    ∃ w2 w3 nq rest,
      g1 = s.takeWhile isSpaceJS ∧
      g2 = "url".toList ++ w2 ++ '=' :: w3 ∧
      m = g1 ++ (g2 ++ '"' :: (nq ++ ['"', ';'])) ∧
      s = g1 ++ ("url".toList ++ (w2 ++ ('=' :: (w3 ++ ('"' :: (nq ++
        ('"' :: (';' :: rest)))))))) ∧
      w2.all isSpaceJS = true ∧ w3.all isSpaceJS = true ∧
      nq.all (fun c => c ≠ '"') = true := by
  unfold matchUrlLineAt at h
  cases h1 : stripPrefixL "url".toList (s.dropWhile isSpaceJS) with
  | none => rw [h1] at h; simp at h
  | some s2 =>
    rw [h1] at h
    dsimp only at h
    cases h2 : stripPrefixL ['='] (s2.dropWhile isSpaceJS) with
    | none => rw [h2] at h; simp at h
    | some s3 =>
      rw [h2] at h
      dsimp only at h
      cases h3 : stripPrefixL ['"'] (s3.dropWhile isSpaceJS) with
      | none => rw [h3] at h; simp at h
      | some s4 =>
        rw [h3] at h
        dsimp only at h
        cases h4 : stripPrefixL ['"'] (s4.dropWhile (fun c => c ≠ '"')) with
        | none => rw [h4] at h; simp at h
        | some s5 =>
          rw [h4] at h
          dsimp only at h
          cases h5 : stripPrefixL [';'] s5 with
          | none => rw [h5] at h; simp at h
          | some rest =>
            rw [h5] at h
            dsimp only at h
            injection h with h
            injection h with hg1 h
            injection h with hg2 hm
            refine ⟨s2.takeWhile isSpaceJS, s3.takeWhile isSpaceJS,
              s4.takeWhile (fun c => c ≠ '"'), rest, hg1.symm, hg2.symm,
              ?_, ?_, all_takeWhile_self _ _, all_takeWhile_self _ _,
              all_takeWhile_self _ _⟩
            · rw [← hm, ← hg1, ← hg2]
              simp [List.append_assoc]
            · have e1 : s = s.takeWhile isSpaceJS ++ s.dropWhile isSpaceJS :=
                (List.takeWhile_append_dropWhile _ _).symm
              have e2 : s.dropWhile isSpaceJS = "url".toList ++ s2 :=
                stripPrefixL_eq_append h1
              have e3 : s2 = s2.takeWhile isSpaceJS ++
                  s2.dropWhile isSpaceJS :=
                (List.takeWhile_append_dropWhile _ _).symm
              have e4 : s2.dropWhile isSpaceJS = '=' :: s3 :=
                stripPrefixL_eq_append h2
              have e5 : s3 = s3.takeWhile isSpaceJS ++
                  s3.dropWhile isSpaceJS :=
                (List.takeWhile_append_dropWhile _ _).symm
              have e6 : s3.dropWhile isSpaceJS = '"' :: s4 :=
                stripPrefixL_eq_append h3
              have e7 : s4 = s4.takeWhile (fun c => c ≠ '"') ++
                  s4.dropWhile (fun c => c ≠ '"') :=
                (List.takeWhile_append_dropWhile _ _).symm
              have e8 : s4.dropWhile (fun c => c ≠ '"') = '"' :: s5 :=
                stripPrefixL_eq_append h4
              have e9 : s5 = ';' :: rest := stripPrefixL_eq_append h5
              rw [← hg1]
              conv_lhs => rw [e1, e2, e3, e4, e5, e6, e7, e8, e9]

theorem matchUrlLineAt_len {s g1 g2 m : List Char}
    (h : matchUrlLineAt s = some (g1, g2, m)) : 1 ≤ m.length := by
  obtain ⟨w2, w3, nq, rest, _, _, hm, _, _, _, _⟩ := matchUrlLineAt_inv h
  rw [hm]
  simp only [List.length_append, List.length_cons]
  omega

theorem scanIdx_shift {α : Type} (f : List Char → Option α) :
    ∀ (s : List Char) (idx : Nat),
      scanIdx f idx s = (scanIdx f 0 s).map (fun p => (idx + p.1, p.2)) := by
  intro s
  induction s with
  | nil =>
    intro idx
    unfold scanIdx
    cases f [] <;> rfl
  | cons c cs ih =>
    intro idx
    unfold scanIdx
    cases f (c :: cs) with
    | some a => rfl
    | none =>
      dsimp only
      rw [ih (idx + 1), ih 1, Option.map_map]
      cases scanIdx f 0 cs with
      | none => rfl
      | some p =>
        simp only [Option.map_some', Function.comp]
        have harith : idx + 1 + p.1 = idx + (1 + p.1) := by omega
        rw [harith]

theorem replUrl_fuel (rep full : List Char) :
    ∀ (fuel1 : Nat) (s : List Char) (fuel2 pos : Nat),
      s.length ≤ fuel1 → s.length ≤ fuel2 →
      replUrlAux rep full fuel1 pos s = replUrlAux rep full fuel2 pos s := by
  intro fuel1
  induction fuel1 with
  | zero =>
    intro s fuel2 pos h1 _h2
    have hs : s = [] := List.length_eq_zero.mp (Nat.le_zero.mp h1)
    subst hs
    rw [replUrlAux_nil, replUrlAux_nil]
  | succ f1 ih =>
    intro s fuel2 pos h1 h2
    cases s with
    | nil => rw [replUrlAux_nil, replUrlAux_nil]
    | cons c cs =>
      simp only [List.length_cons] at h1 h2
      cases fuel2 with
      | zero => omega
      | succ f2 =>
        have hdl : (cs.drop (1 - 1)).length ≤ cs.length := by
          simp [List.length_drop]
        cases hm : matchUrlLineAt (c :: cs) with
        | some v =>
          obtain ⟨g1, g2, m⟩ := v
          rw [replUrlAux_match rep full f1 pos c cs g1 g2 m hm,
            replUrlAux_match rep full f2 pos c cs g1 g2 m hm]
          congr 1
          have hd : (cs.drop (m.length - 1)).length ≤ cs.length := by
            simp [List.length_drop]
          exact ih _ f2 _ (by omega) (by omega)
        | none =>
          rw [replUrlAux_nomatch rep full f1 pos c cs hm,
            replUrlAux_nomatch rep full f2 pos c cs hm]
          congr 1
          exact ih cs f2 (pos + 1) (by omega) (by omega)

theorem replUrl_no_match (rep full : List Char) :
    ∀ (s : List Char) (fuel pos idx : Nat),
      scanIdx matchUrlLineAt idx s = none →
      replUrlAux rep full fuel pos s = s := by
  intro s
  induction s with
  | nil => intro fuel pos idx _; rw [replUrlAux_nil]
  | cons c cs ih =>
    intro fuel pos idx h
    unfold scanIdx at h
    cases hm : matchUrlLineAt (c :: cs) with
    | some v => rw [hm] at h; simp at h
    | none =>
      rw [hm] at h
      dsimp only at h
      cases fuel with
      | zero => rw [replUrlAux_zero]
      | succ fu =>
        rw [replUrlAux_nomatch rep full fu pos c cs hm]
        rw [ih fu (pos + 1) (idx + 1) h]

theorem replUrl_first (rep full : List Char) :
    ∀ (s : List Char) (q : Nat) (g1 g2 m : List Char) (fuel pos : Nat),
      scanIdx matchUrlLineAt 0 s = some (q, (g1, g2, m)) →
      s.length ≤ fuel →
      replUrlAux rep full fuel pos s =
        s.take q ++
          jsSubst m g1 g2 (full.take (pos + q))
            (full.drop (pos + q + m.length)) rep ++
          replUrlAux rep full (s.drop (q + m.length)).length
            (pos + q + m.length) (s.drop (q + m.length)) := by
  intro s
  induction s with
  | nil =>
    intro q g1 g2 m fuel pos h _
    rw [show scanIdx matchUrlLineAt 0 ([] : List Char) = none from rfl] at h
    exact Option.noConfusion h
  | cons c cs ih =>
    intro q g1 g2 m fuel pos h hf
    simp only [List.length_cons] at hf
    cases fuel with
    | zero => omega
    | succ fu =>
      unfold scanIdx at h
      cases hm : matchUrlLineAt (c :: cs) with
      | some v =>
        rw [hm] at h
        dsimp only at h
        injection h with h
        injection h with hq hv
        subst hv
        subst hq
        rw [replUrlAux_match rep full fu pos c cs g1 g2 m hm]
        have hlen := matchUrlLineAt_len hm
        simp only [List.take_zero, List.nil_append, Nat.add_zero,
          Nat.zero_add]
        have hdrop : (c :: cs).drop m.length = cs.drop (m.length - 1) := by
          cases hml : m.length with
          | zero => rw [hml] at hlen; exact absurd hlen (by omega)
          | succ k => simp
        rw [hdrop]
        congr 1
        apply replUrl_fuel
        · have : (cs.drop (m.length - 1)).length ≤ cs.length := by
            simp [List.length_drop]
          omega
        · exact le_rfl
      | none =>
        rw [hm] at h
        dsimp only at h
        rw [scanIdx_shift] at h
        cases hs : scanIdx matchUrlLineAt 0 cs with
        | none => rw [hs] at h; simp at h
        | some pr =>
          obtain ⟨q', v'⟩ := pr
          rw [hs] at h
          simp only [Option.map_some'] at h
          injection h with h
          injection h with hq hv
          subst hv
          subst hq
          rw [replUrlAux_nomatch rep full fu pos c cs hm]
          rw [ih q' g1 g2 m fu (pos + 1) hs (by omega)]
          rw [show 1 + q' = q' + 1 from Nat.add_comm 1 q']
          have ha1 : pos + 1 + q' = pos + (q' + 1) := by omega
          have ha2 : pos + 1 + q' + m.length =
              pos + (q' + 1) + m.length := by omega
          rw [ha2, ha1]
          have hd : (c :: cs).drop (q' + 1 + m.length) =
              cs.drop (q' + m.length) := by
            have he : q' + 1 + m.length = (q' + m.length) + 1 := by omega
            rw [he, List.drop_succ_cons]
          rw [hd]
          simp [List.cons_append, List.take_succ_cons]

/-- **C2 (amended)**: for a block-shape declaration, the rewrite splices
the block back into the buffer by exact index-range substitution, but
*inside* the block it performs a global regex replace of every url-line
match (`\s*url\s*=\s*"…";`, which also matches dotted attribute lines
such as `inputs.<x>.url = "…";`) with the same replacement text, built
from the first match's leading-whitespace capture.  When the block
contains exactly one url-line match, only that span is replaced — the
annotation comment followed by the pinned url line at the captured
indentation — and every other byte of the block and of the buffer is
preserved; only the first located block for the input is touched. -/
theorem block_rewrite_exact (content : List Char) (i : PinnedInput)
    (p g1len mlen q : Nat) (ug1 ug2 um u cm nc : List Char)
    (hnp : isAlreadyPinnedE content i = .ok false)
    (hns : findSimpleLoc i.name.toList content = none)
    (hb : findBlockLoc i.name.toList content = some (p, g1len, mlen))
    (hu : buildPinnedUrlE i = .ok u)
    (hm : scanIdx matchUrlLineAt 0 ((content.drop p).take mlen) =
      some (q, (ug1, ug2, um)))
    (hcm : buildRenovateCommentE i ug1 = .ok cm)
    (hone : scanIdx matchUrlLineAt 0
      (((content.drop p).take mlen).drop (q + um.length)) = none)
    (hd : dollarFree (cm ++ ug1 ++ "url = \"".toList ++ u ++ "\";".toList) =
      true)
    (hnc : nc = content.take p ++
      (((content.drop p).take mlen).take q ++
        (cm ++ ug1 ++ "url = \"".toList ++ u ++ "\";".toList) ++
        ((content.drop p).take mlen).drop (q + um.length)) ++
      content.drop (p + mlen)) :
    processInput content i = .ok (nc, decide (nc ≠ content)) := by
  unfold processInput
  rw [hnp]
  dsimp only
  rw [hns]
  dsimp only
  rw [hb]
  dsimp only
  rw [hu]
  dsimp only
  rw [hm]
  dsimp only
  rw [hcm]
  dsimp only
  have hrepl :
      replUrlAll (cm ++ ug1 ++ "url = \"".toList ++ u ++ "\";".toList)
        ((content.drop p).take mlen) =
      ((content.drop p).take mlen).take q ++
        (cm ++ ug1 ++ "url = \"".toList ++ u ++ "\";".toList) ++
        ((content.drop p).take mlen).drop (q + um.length) := by
    unfold replUrlAll
    rw [replUrl_first
      (cm ++ ug1 ++ "url = \"".toList ++ u ++ "\";".toList)
      ((content.drop p).take mlen) ((content.drop p).take mlen) q ug1 ug2
      um ((content.drop p).take mlen).length 0 hm le_rfl]
    rw [replUrl_no_match
      (cm ++ ug1 ++ "url = \"".toList ++ u ++ "\";".toList)
      ((content.drop p).take mlen)
      (((content.drop p).take mlen).drop (q + um.length)) _ _ 0 hone]
    rw [jsSubst_dollarFree um ug1 ug2 _ _ _ hd]
  rw [hrepl, hnc]

/-- Witness for `block_rewrite_exact` (claim C2) on a block with exactly
one url-line match. -/
theorem block_rewrite_exact_witness :
    processInput w2T w2I = .ok (w2Out, true) :=
  (block_rewrite_exact w2T w2I 0 2 27 7 "\n    ".toList
    "url = ".toList "\n    url = \"u\";".toList "github:o/r/v".toList
    "\n    # depName=o/r".toList w2Out (by decide) (by decide) (by decide)
    (by decide) (by decide) (by decide) (by decide) (by decide)
    (by decide)).trans (by decide)

theorem isSpaceJS_ne_quote {c : Char} (h : isSpaceJS c = true) : c ≠ '"' := by
  intro he
  subst he
  exact absurd h (by decide)

theorem isSpaceJS_ne_dollar {c : Char} (h : isSpaceJS c = true) :
    c ≠ '$' := by
  intro he
  subst he
  exact absurd h (by decide)

theorem all_take_of_all {p : Char → Bool} {l : List Char}
    (h : l.all p = true) (j : Nat) : (l.take j).all p = true := by
  induction l generalizing j with
  | nil => simp
  | cons c cs ih =>
    cases j with
    | zero => simp
    | succ k =>
      rw [List.all_cons, Bool.and_eq_true] at h
      simpa [List.all_cons, h.1] using ih h.2 k

theorem all_drop_of_all {p : Char → Bool} {l : List Char}
    (h : l.all p = true) (j : Nat) : (l.drop j).all p = true := by
  induction l generalizing j with
  | nil => simp
  | cons c cs ih =>
    cases j with
    | zero => simpa using h
    | succ k =>
      rw [List.all_cons, Bool.and_eq_true] at h
      simpa using ih h.2 k

theorem quoteFree_of_all_space {l : List Char} (h : l.all isSpaceJS = true) :
    quoteFree l = true := by
  unfold quoteFree
  rw [List.all_eq_true] at h ⊢
  intro c hc
  simpa using isSpaceJS_ne_quote (h c hc)

theorem dollarFree_of_all_space {l : List Char}
    (h : l.all isSpaceJS = true) : dollarFree l = true := by
  unfold dollarFree
  rw [List.all_eq_true] at h ⊢
  intro c hc
  simpa using isSpaceJS_ne_dollar (h c hc)

theorem scanIdx_inv {α : Type} {f : List Char → Option α} :
    ∀ {s : List Char} {q : Nat} {a : α},
      scanIdx f 0 s = some (q, a) → f (s.drop q) = some a := by
  intro s
  induction s with
  | nil =>
    intro q a h
    unfold scanIdx at h
    cases hf : f [] with
    | none => rw [hf] at h; simp at h
    | some b =>
      rw [hf] at h
      simp only [Option.map_some', Option.some.injEq, Prod.mk.injEq] at h
      obtain ⟨hq, hb⟩ := h
      subst hb
      rw [← hq]
      simpa using hf
  | cons c cs ih =>
    intro q a h
    unfold scanIdx at h
    cases hf : f (c :: cs) with
    | some b =>
      rw [hf] at h
      dsimp only at h
      simp only [Option.some.injEq, Prod.mk.injEq] at h
      obtain ⟨hq, hb⟩ := h
      subst hb
      rw [← hq]
      simpa using hf
    | none =>
      rw [hf] at h
      dsimp only at h
      rw [scanIdx_shift] at h
      cases hs : scanIdx f 0 cs with
      | none => rw [hs] at h; simp at h
      | some pr =>
        obtain ⟨q', a'⟩ := pr
        rw [hs] at h
        simp only [Option.map_some', Option.some.injEq, Prod.mk.injEq] at h
        obtain ⟨hq, hb⟩ := h
        subst hb
        rw [← hq]
        have := ih hs
        simpa [Nat.add_comm 1 q'] using this

theorem scanIdx_isSome_of_suffix {α : Type} {f : List Char → Option α} :
    ∀ (s : List Char) (j : Nat) {a : α},
      f (s.drop j) = some a → ∃ r, scanIdx f 0 s = some r := by
  intro s
  induction s with
  | nil =>
    intro j a h
    simp only [List.drop_nil] at h
    exact ⟨(0, a), by unfold scanIdx; rw [h]; rfl⟩
  | cons c cs ih =>
    intro j a h
    unfold scanIdx
    cases hf : f (c :: cs) with
    | some b => exact ⟨(0, b), rfl⟩
    | none =>
      dsimp only
      cases j with
      | zero =>
        simp only [List.drop_zero] at h
        rw [h] at hf
        exact absurd hf (by simp)
      | succ k =>
        simp only [List.drop_succ_cons] at h
        obtain ⟨r, hr⟩ := ih k h
        rw [scanIdx_shift, hr]
        exact ⟨(1 + r.1, r.2), rfl⟩

theorem matchUrlLineAt_split {s g1 g2 m : List Char}
    (h : matchUrlLineAt s = some (g1, g2, m)) :
    ∃ y rest, s = m ++ rest ∧ m = y ++ ['"', ';'] ∧
      g1.all isSpaceJS = true := by
  obtain ⟨w2, w3, nq, rest, hg1, hg2, hm, hs, _, _, _⟩ := matchUrlLineAt_inv h
  refine ⟨g1 ++ (g2 ++ '"' :: nq), rest, ?_, ?_, ?_⟩
  · rw [hs, hm, hg2]
    simp [List.append_assoc]
  · rw [hm]
    simp [List.append_assoc]
  · rw [hg1]
    exact all_takeWhile_self _ _

theorem all_mono {p q : Char → Bool} {l : List Char}
    (h : l.all p = true) (hpq : ∀ c, p c = true → q c = true) :
    l.all q = true := by
  rw [List.all_eq_true] at h ⊢
  intro c hc
  exact hpq c (h c hc)

theorem urlMatch_none_head {h0 t : List Char}
    (hq : quoteFree h0 = true) :
    matchUrlLineAt (h0 ++ '{' :: t) = none := by
  cases hm : matchUrlLineAt (h0 ++ '{' :: t) with
  | none => rfl
  | some g =>
    exfalso
    obtain ⟨g1, g2, m⟩ := g
    obtain ⟨w2, w3, nq, rest, hg1, _, _, hs, hw2, hw3, _⟩ :=
      matchUrlLineAt_inv hm
    have hsA : h0 ++ '{' :: t =
        (g1 ++ "url".toList ++ w2 ++ ['='] ++ w3) ++
          '"' :: (nq ++ ('"' :: (';' :: rest))) := by
      rw [hs]
      simp [List.append_assoc]
    have hAall : (g1 ++ "url".toList ++ w2 ++ ['='] ++ w3).all
        (fun c => isSpaceJS c || c == 'u' || c == 'r' || c == 'l' ||
          c == '=') = true := by
      have hg1' : g1.all isSpaceJS = true := by
        rw [hg1]; exact all_takeWhile_self _ _
      simp only [List.all_append, Bool.and_eq_true]
      refine ⟨⟨⟨⟨?_, by decide⟩, ?_⟩, by decide⟩, ?_⟩
      · exact all_mono hg1' (by intro c hc; simp [hc])
      · exact all_mono hw2 (by intro c hc; simp [hc])
      · exact all_mono hw3 (by intro c hc; simp [hc])
    set A : List Char := g1 ++ "url".toList ++ w2 ++ ['='] ++ w3 with hAdef
    rcases Nat.lt_trichotomy h0.length A.length with hlt | heq | hgt
    · have htk := congrArg (List.take (h0.length + 1)) hsA
      rw [List.take_append_eq_append_take, List.take_append_eq_append_take]
        at htk
      have e1 : h0.length + 1 - h0.length = 1 := by omega
      have e2 : h0.length + 1 - A.length = 0 := by omega
      rw [e1, e2] at htk
      simp only [List.take_zero, List.append_nil] at htk
      rw [List.take_of_length_le (by omega)] at htk
      have htake1 : List.take 1 ('{' :: t) = ['{'] := by simp
      rw [htake1] at htk
      have hAtake := all_take_of_all hAall (h0.length + 1)
      rw [← htk] at hAtake
      have hmem : ('{' : Char) ∈ h0 ++ ['{'] := by simp
      rw [List.all_eq_true] at hAtake
      have := hAtake _ hmem
      simp only [Bool.or_eq_true, beq_iff_eq] at this
      rcases this with ((((h5 | h5) | h5) | h5) | h5) <;> exact absurd h5 (by decide)
    · obtain ⟨_, hcons⟩ := List.append_inj hsA heq
      simp at hcons
    · have htk := congrArg (List.take (A.length + 1)) hsA
      rw [List.take_append_eq_append_take, List.take_append_eq_append_take]
        at htk
      have e1 : A.length + 1 - h0.length = 0 := by omega
      have e2 : A.length + 1 - A.length = 1 := by omega
      rw [e1, e2] at htk
      simp only [List.take_zero, List.append_nil] at htk
      have hAtk : A.take (A.length + 1) = A :=
        List.take_of_length_le (Nat.le_succ _)
      rw [hAtk] at htk
      have htake1 : List.take 1 ('"' :: (nq ++ ('"' :: (';' :: rest)))) =
          ['"'] := by simp
      rw [htake1] at htk
      have hqt := all_take_of_all hq (A.length + 1)
      rw [htk] at hqt
      have hmem : ('"' : Char) ∈ A ++ ['"'] := by simp
      rw [List.all_eq_true] at hqt
      have := hqt _ hmem
      simp at this

theorem replUrl_head_pres (rep full : List Char) :
    ∀ (h0 t : List Char) (fuel pos : Nat),
      quoteFree h0 = true →
      h0.length + 1 + t.length ≤ fuel →
      replUrlAux rep full fuel pos (h0 ++ '{' :: t) =
        h0 ++ '{' :: replUrlAux rep full t.length (pos + h0.length + 1) t := by
  intro h0
  induction h0 with
  | nil =>
    intro t fuel pos _ hf
    cases fuel with
    | zero => omega
    | succ f =>
      have hnone : matchUrlLineAt ('{' :: t) = none := by
        have := @urlMatch_none_head [] t (by decide)
        simpa using this
      rw [List.nil_append, replUrlAux_nomatch _ _ _ _ _ _ hnone]
      rw [replUrl_fuel rep full f t t.length (pos + 1) (by
        simp at hf; omega) (le_refl _)]
      simp
  | cons c h0' ih =>
    intro t fuel pos hq hf
    have hq2 : quoteFree h0' = true := by
      unfold quoteFree at hq ⊢
      rw [List.all_cons, Bool.and_eq_true] at hq
      exact hq.2
    cases fuel with
    | zero =>
      simp only [List.length_cons] at hf
      omega
    | succ f =>
      have hnone : matchUrlLineAt (c :: (h0' ++ '{' :: t)) = none := by
        have := @urlMatch_none_head (c :: h0') t hq
        rwa [List.cons_append] at this
      rw [List.cons_append, replUrlAux_nomatch _ _ _ _ _ _ hnone]
      rw [ih t f (pos + 1) hq2 (by
        simp only [List.length_cons] at hf; omega)]
      have harith : pos + 1 + h0'.length + 1 =
          pos + (c :: h0').length + 1 := by
        simp only [List.length_cons]
        omega
      rw [harith, List.cons_append]

theorem rest_close {s a m rest y X : List Char}
    (hs : s = a ++ (m ++ rest)) (hm : m = y ++ ['"', ';'])
    (hX : s = X ++ ['}', ';']) :
    ∃ y2, rest = y2 ++ ['}', ';'] := by
  have heq : a ++ (m ++ rest) = X ++ ['}', ';'] := hs.symm.trans hX
  have hrev : rest.reverse ++ (';' :: '"' :: (y.reverse ++ a.reverse)) =
      ';' :: '}' :: X.reverse := by
    have h2 := congrArg List.reverse heq
    simp only [List.reverse_append, hm, List.reverse_cons,
      List.reverse_nil, List.nil_append, List.append_assoc] at h2
    simpa [List.append_assoc] using h2
  rcases rest with _ | ⟨r1, _ | ⟨r2, rr⟩⟩
  · exfalso
    simp only [List.reverse_nil, List.nil_append, List.cons.injEq] at hrev
    exact absurd hrev.2.1 (by decide)
  · exfalso
    simp only [List.reverse_cons, List.reverse_nil, List.nil_append,
      List.cons_append, List.cons.injEq] at hrev
    exact absurd hrev.2.1 (by decide)
  · have hlen : 2 ≤ (r1 :: r2 :: rr).reverse.length := by
      simp [List.length_reverse]
    have htk := congrArg (List.take 2) hrev
    rw [List.take_append_eq_append_take] at htk
    have e0 : 2 - (r1 :: r2 :: rr).reverse.length = 0 := by omega
    rw [e0] at htk
    simp only [List.take_zero, List.append_nil] at htk
    have htk2 : (r1 :: r2 :: rr).reverse.take 2 = [';', '}'] := by
      rw [htk]; rfl
    refine ⟨((r1 :: r2 :: rr).reverse.drop 2).reverse, ?_⟩
    have hsplit : (r1 :: r2 :: rr).reverse =
        [';', '}'] ++ (r1 :: r2 :: rr).reverse.drop 2 := by
      have h3 := (List.take_append_drop 2 (r1 :: r2 :: rr).reverse).symm
      rw [htk2] at h3
      exact h3
    have := congrArg List.reverse hsplit
    simpa [List.reverse_append] using this

theorem replUrlAux_semi (rep full : List Char) (fuel pos : Nat) :
    replUrlAux rep full fuel pos [';'] = [';'] := by
  cases fuel with
  | zero => rfl
  | succ f =>
    rw [replUrlAux_nomatch _ _ _ _ _ _ (by rfl), replUrlAux_nil]

theorem replUrl_close (rep full : List Char) :
    ∀ (fuel : Nat) (s : List Char) (pos : Nat) (y : List Char),
      s = y ++ ['}', ';'] →
      ∃ y2, replUrlAux rep full fuel pos s = y2 ++ ['}', ';'] := by
  intro fuel
  induction fuel with
  | zero =>
    intro s pos y hy
    exact ⟨y, by rw [replUrlAux_zero, hy]⟩
  | succ f ih =>
    intro s pos y hy
    cases s with
    | nil =>
      exfalso
      have := congrArg List.length hy
      simp at this
    | cons c cs =>
      cases hm : matchUrlLineAt (c :: cs) with
      | some g =>
        obtain ⟨g1, g2, m⟩ := g
        rw [replUrlAux_match _ _ _ _ _ _ _ _ _ hm]
        obtain ⟨ym, restm, hsm, hmE, _⟩ := matchUrlLineAt_split hm
        have hdrop : cs.drop (m.length - 1) = restm := by
          have hlm : 1 ≤ m.length := by
            rw [hmE]
            simp
          have h1 : (c :: cs).drop m.length = restm := by
            rw [hsm, List.drop_left]
          rw [← h1]
          obtain ⟨k, hk⟩ : ∃ k, m.length = k + 1 :=
            ⟨m.length - 1, by omega⟩
          rw [hk]
          simp
        have hs0 : (c :: cs) = [] ++ (m ++ restm) := by simpa using hsm
        obtain ⟨y2, hy2⟩ := rest_close hs0 hmE hy
        obtain ⟨y3, h3⟩ := ih restm (pos + m.length) y2 hy2
        rw [hdrop, h3]
        exact ⟨jsSubst m g1 g2 (full.take pos)
          (full.drop (pos + m.length)) rep ++ y3, by
            simp [List.append_assoc]⟩
      | none =>
        rw [replUrlAux_nomatch _ _ _ _ _ _ hm]
        cases y with
        | nil =>
          simp only [List.nil_append, List.cons.injEq] at hy
          obtain ⟨hc, hcs⟩ := hy
          subst hc
          subst hcs
          rw [replUrlAux_semi]
          exact ⟨[], rfl⟩
        | cons y0 ys =>
          rw [List.cons_append, List.cons.injEq] at hy
          obtain ⟨hc, hcs⟩ := hy
          obtain ⟨y3, h3⟩ := ih cs (pos + 1) ys hcs
          rw [h3]
          exact ⟨c :: y3, by simp⟩

theorem scanLineStarts_inv {α : Type} {f : List Char → Option α} :
    ∀ {s : List Char} {ls : Bool} {idx p : Nat} {a : α},
      scanLineStarts f ls idx s = some (p, a) →
      ∃ j, p = idx + j ∧ f (s.drop j) = some a := by
  intro s
  induction s with
  | nil =>
    intro ls idx p a h
    cases ls with
    | false => exact absurd h (by simp [scanLineStarts])
    | true =>
      unfold scanLineStarts at h
      cases hf : f [] with
      | none => rw [hf] at h; simp at h
      | some b =>
        rw [hf] at h
        simp only [if_true, Option.map_some', Option.some.injEq,
          Prod.mk.injEq] at h
        obtain ⟨hp, hb⟩ := h
        subst hb
        exact ⟨0, by omega, by simpa using hf⟩
  | cons c cs ih =>
    intro ls idx p a h
    cases ls with
    | true =>
      unfold scanLineStarts at h
      cases hf : f (c :: cs) with
      | some b =>
        rw [hf] at h
        simp only [if_true, Option.some.injEq, Prod.mk.injEq] at h
        obtain ⟨hp, hb⟩ := h
        subst hb
        exact ⟨0, by omega, by simpa using hf⟩
      | none =>
        rw [hf] at h
        simp only [if_true] at h
        obtain ⟨j, hj, hfj⟩ := ih h
        exact ⟨j + 1, by omega, by simpa using hfj⟩
    | false =>
      unfold scanLineStarts at h
      simp only [Bool.false_eq_true, if_false] at h
      obtain ⟨j, hj, hfj⟩ := ih h
      exact ⟨j + 1, by omega, by simpa using hfj⟩

theorem tryKs_inv {α : Type} {f : Nat → Option α} :
    ∀ {K : Nat} {a : α}, tryKs f K = some a → ∃ j, j ≤ K ∧ f j = some a := by
  intro K
  induction K with
  | zero => intro a h; exact ⟨0, le_refl _, h⟩
  | succ k ih =>
    intro a h
    unfold tryKs at h
    cases hf : f (k + 1) with
    | some b =>
      rw [hf] at h
      injection h with h
      subst h
      exact ⟨k + 1, le_refl _, hf⟩
    | none =>
      rw [hf] at h
      dsimp only at h
      obtain ⟨j, hj, hfj⟩ := ih h
      exact ⟨j, by omega, hfj⟩

theorem blockTermSearch_inv :
    ∀ {t : List Char} {ls : Bool} {rem : List Char},
      blockTermSearch ls t = some rem →
      ∃ mid wsq, t = mid ++ (wsq ++ ('}' :: (';' :: rem))) ∧
        wsq.all isSpaceJS = true := by
  intro t
  induction t with
  | nil => intro ls rem h; exact absurd h (by simp [blockTermSearch])
  | cons c cs ih =>
    intro ls rem h
    unfold blockTermSearch at h
    cases ls with
    | false =>
      simp only [Bool.false_eq_true, if_false] at h
      obtain ⟨mid, wsq, hcs, hw⟩ := ih h
      exact ⟨c :: mid, wsq, by rw [List.cons_append, hcs], hw⟩
    | true =>
      simp only [if_true] at h
      cases hsp : stripPrefixL "\x7d;".toList ((c :: cs).dropWhile isSpaceJS)
        with
      | some r =>
        rw [hsp] at h
        dsimp only at h
        injection h with h
        subst h
        have hdw : (c :: cs).dropWhile isSpaceJS = '}' :: (';' :: r) := by
          have := stripPrefixL_eq_append hsp
          simpa using this
        refine ⟨[], (c :: cs).takeWhile isSpaceJS, ?_, all_takeWhile_self _ _⟩
        rw [List.nil_append, ← hdw]
        exact (List.takeWhile_append_dropWhile _ _).symm
      | none =>
        rw [hsp] at h
        dsimp only at h
        obtain ⟨mid, wsq, hcs, hw⟩ := ih h
        exact ⟨c :: mid, wsq, by rw [List.cons_append, hcs], hw⟩

theorem blockRest_inv {name s rem : List Char}
    (h : blockRest name s = some rem) :
    ∃ w2 w3 mid wsq,
      s = name ++ (w2 ++ ('=' :: (w3 ++ ('{' ::
        (mid ++ (wsq ++ ('}' :: (';' :: rem)))))))) ∧
      w2.all isSpaceJS = true ∧ w3.all isSpaceJS = true ∧
      wsq.all isSpaceJS = true := by
  unfold blockRest at h
  simp only [Option.bind_eq_bind, Option.bind_eq_some] at h
  obtain ⟨s1, hs1, s2, hs2, s3, hs3, hterm⟩ := h
  obtain ⟨mid, wsq, ht, hw⟩ := blockTermSearch_inv hterm
  have e1 : s = name ++ s1 := stripPrefixL_eq_append hs1
  have e2 : s1.dropWhile isSpaceJS = '=' :: s2 := by
    simpa using stripPrefixL_eq_append hs2
  have e3 : s2.dropWhile isSpaceJS = '{' :: s3 := by
    simpa using stripPrefixL_eq_append hs3
  refine ⟨s1.takeWhile isSpaceJS, s2.takeWhile isSpaceJS, mid, wsq, ?_,
    all_takeWhile_self _ _, all_takeWhile_self _ _, hw⟩
  rw [e1, ← ht, ← e3]
  rw [show '=' :: (s2.takeWhile isSpaceJS ++ s2.dropWhile isSpaceJS) =
    '=' :: s2 from by rw [List.takeWhile_append_dropWhile]]
  rw [← e2, List.takeWhile_append_dropWhile]

theorem blockLocAt_inv {name s : List Char} {k len : Nat}
    (h : blockLocAt name s = some (k, len)) :
    ∃ rem, (s.take k).all isSpaceJS = true ∧
      blockRest name (s.drop k) = some rem ∧
      len = s.length - rem.length := by
  unfold blockLocAt at h
  obtain ⟨j, hj, hfj⟩ := tryKs_inv h
  cases hbr : blockRest name (s.drop j) with
  | none => rw [hbr] at hfj; simp at hfj
  | some rem =>
    rw [hbr] at hfj
    dsimp only at hfj
    injection hfj with hfj
    injection hfj with hk hlen
    subst hk
    refine ⟨rem, ?_, hbr, hlen.symm⟩
    have h0 : s.take j = (s.takeWhile isSpaceJS).take j := by
      conv_lhs => rw [← List.takeWhile_append_dropWhile isSpaceJS s]
      rw [List.take_append_eq_append_take]
      have e : j - (s.takeWhile isSpaceJS).length = 0 := by omega
      rw [e]
      simp
    rw [h0]
    exact all_take_of_all (all_takeWhile_self isSpaceJS s) j

theorem findBlockLoc_inv {name content : List Char} {p k mlen : Nat}
    (h : findBlockLoc name content = some (p, k, mlen)) :
    ∃ g1w w2 w3 mid wsq,
      (content.drop p).take mlen =
        g1w ++ (name ++ (w2 ++ ('=' :: (w3 ++ ('{' ::
          (mid ++ (wsq ++ ['}', ';']))))))) ∧
      g1w.all isSpaceJS = true ∧ w2.all isSpaceJS = true ∧
      w3.all isSpaceJS = true := by
  unfold findBlockLoc at h
  obtain ⟨j, hp, hfj⟩ := scanLineStarts_inv h
  obtain ⟨rem, hg1, hbr, hlen⟩ := blockLocAt_inv hfj
  obtain ⟨w2, w3, mid, wsq, hst, hw2, hw3, hwq⟩ := blockRest_inv hbr
  have hpj : p = j := by omega
  subst hpj
  refine ⟨(content.drop p).take k, w2, w3, mid, wsq, ?_, hg1, hw2, hw3⟩
  have hsplit : content.drop p =
      ((content.drop p).take k ++ (name ++ (w2 ++ ('=' :: (w3 ++ ('{' ::
        (mid ++ (wsq ++ ['}', ';'])))))))) ++ rem := by
    conv_lhs => rw [← List.take_append_drop k (content.drop p)]
    rw [hst]
    simp [List.append_assoc]
  have hmlen : mlen =
      ((content.drop p).take k ++ (name ++ (w2 ++ ('=' :: (w3 ++ ('{' ::
        (mid ++ (wsq ++ ['}', ';'])))))))).length := by
    have := congrArg List.length hsplit
    rw [List.length_append] at this
    omega
  conv_lhs => rw [hsplit, hmlen]
  exact List.take_left _ _

theorem simplePinnedAt_insert (name u B : List Char) :
    simplePinnedAt name u
      (name ++ (".url = \"".toList ++ (u ++ ('"' :: B)))) = true := by
  unfold simplePinnedAt
  have e1 : name ++ (".url = \"".toList ++ (u ++ ('"' :: B))) =
      (name ++ ".url".toList) ++
        ([' '] ++ '=' :: ([' '] ++ '"' :: (u ++ ('"' :: B)))) := by
    have e0 : ".url = \"".toList =
        ".url".toList ++ ([' '] ++ '=' :: ([' '] ++ ['"'])) := rfl
    rw [e0]
    simp [List.append_assoc]
  rw [e1, Option.bind_eq_bind, stripPrefixL_self_append, Option.some_bind]
  rw [dropWhile_append_cons _ (by decide) (by decide)]
  rw [show stripPrefixL ['='] ('=' :: ([' '] ++ '"' :: (u ++ ('"' :: B)))) =
    some ([' '] ++ '"' :: (u ++ ('"' :: B))) from by simp [stripPrefixL]]
  rw [Option.some_bind]
  rw [dropWhile_append_cons _ (by decide) (by decide)]
  rw [show '"' :: (u ++ ('"' :: B)) = ('"' :: u ++ ['"']) ++ B from by
    simp [List.append_assoc]]
  rw [stripPrefixL_self_append]
  rfl

theorem parseUrlPinned_site (u RT : List Char) :
    parseUrlPinned u ("url = \"".toList ++ (u ++ ('"' :: RT))) = some RT := by
  unfold parseUrlPinned
  have e1 : "url = \"".toList ++ (u ++ ('"' :: RT)) =
      "url".toList ++ ([' '] ++ '=' :: ([' '] ++ '"' :: (u ++ ('"' :: RT))))
      := by
    have e0 : "url = \"".toList =
        "url".toList ++ ([' '] ++ '=' :: ([' '] ++ ['"'])) := rfl
    rw [e0]
    simp [List.append_assoc]
  rw [e1, Option.bind_eq_bind, stripPrefixL_self_append, Option.some_bind]
  rw [dropWhile_append_cons _ (by decide) (by decide)]
  rw [show stripPrefixL ['='] ('=' :: ([' '] ++ '"' :: (u ++ ('"' :: RT)))) =
    some ([' '] ++ '"' :: (u ++ ('"' :: RT))) from by simp [stripPrefixL]]
  rw [Option.some_bind]
  rw [dropWhile_append_cons _ (by decide) (by decide)]
  rw [show '"' :: (u ++ ('"' :: RT)) = ('"' :: u ++ ['"']) ++ RT from by
    simp [List.append_assoc]]
  rw [stripPrefixL_self_append]

theorem blockPinnedAt_shape (name u w2 w3 inner : List Char)
    (hw2 : w2.all isSpaceJS = true) (hw3 : w3.all isSpaceJS = true)
    (hsite : scanThen (parseUrlPinned u) (containsSeq "\x7d;".toList) inner =
      true) :
    blockPinnedAt name u
      (name ++ (w2 ++ ('=' :: (w3 ++ ('{' :: inner))))) = true := by
  unfold blockPinnedAt
  rw [Option.bind_eq_bind, stripPrefixL_self_append, Option.some_bind]
  rw [dropWhile_append_cons _ hw2 (by decide)]
  rw [show stripPrefixL ['='] ('=' :: (w3 ++ ('{' :: inner))) =
    some (w3 ++ ('{' :: inner)) from by simp [stripPrefixL]]
  rw [Option.some_bind]
  rw [dropWhile_append_cons _ hw3 (by decide)]
  rw [show stripPrefixL ['{'] ('{' :: inner) = some inner from by
    simp [stripPrefixL]]
  exact hsite

theorem buildRenovateCommentE_struct {i : PinnedInput} {ind c : List Char}
    (h : buildRenovateCommentE i ind = .ok c) :
    ∃ ps, renovateParts i = .ok ps ∧
      c = ind ++ "# ".toList ++ (" ".intercalate ps).toList := by
  unfold buildRenovateCommentE at h
  cases hp : renovateParts i with
  | error e => rw [hp] at h; exact absurd h (by simp)
  | ok ps =>
    rw [hp] at h
    injection h with h
    exact ⟨ps, rfl, h.symm⟩

theorem isAlreadyPinnedE_of_simple {i : PinnedInput} {u : List Char}
    (content : List Char) (hpu : buildPinnedUrlE i = .ok u)
    (hsim : containsSimplePinned i.name.toList u content = true) :
    isAlreadyPinnedE content i = .ok true := by
  unfold isAlreadyPinnedE
  rw [hpu]
  dsimp only [bind, Except.bind]
  rw [hsim]
  simp [pure, Except.pure]

theorem isAlreadyPinnedE_of_block {i : PinnedInput} {u : List Char}
    (content : List Char) (hpu : buildPinnedUrlE i = .ok u)
    (hblk : containsBlockPinned i.name.toList u content = true) :
    isAlreadyPinnedE content i = .ok true := by
  unfold isAlreadyPinnedE
  rw [hpu]
  dsimp only [bind, Except.bind]
  rw [hblk]
  simp [pure, Except.pure]

theorem quoteFree_append (a b : List Char) :
    quoteFree (a ++ b) = (quoteFree a && quoteFree b) := by
  unfold quoteFree
  simp [List.all_append]

theorem processInput_idem (i : PinnedInput) (content : List Char)
    (r : List Char × Bool) (hsafe : stepSafe i = true)
    (hres : processInput content i = .ok r) :
    processInput r.1 i = .ok (r.1, false) := by
  unfold processInput at hres
  cases hap : isAlreadyPinnedE content i with
  | error e => rw [hap] at hres; exact absurd hres (by simp)
  | ok b =>
    rw [hap] at hres
    cases b with
    | true =>
      dsimp only at hres
      injection hres with hres
      subst hres
      show processInput content i = .ok (content, false)
      unfold processInput
      rw [hap]
    | false =>
      dsimp only at hres
      cases hsl : findSimpleLoc i.name.toList content with
      | some t =>
        obtain ⟨p, g1len, mlen⟩ := t
        rw [hsl] at hres
        dsimp only at hres
        cases hpu : buildPinnedUrlE i with
        | error e => rw [hpu] at hres; exact absurd hres (by simp)
        | ok pinned =>
          rw [hpu] at hres
          dsimp only at hres
          cases hcm : buildRenovateCommentE i ((content.drop p).take g1len)
            with
          | error e => rw [hcm] at hres; exact absurd hres (by simp)
          | ok comment =>
            rw [hcm] at hres
            dsimp only at hres
            injection hres with hres
            subst hres
            dsimp only
            have hshape : content.take p ++
                (comment ++ '\n' :: ((content.drop p).take g1len ++
                  i.name.toList ++ ".url = \"".toList ++ pinned ++
                  "\";".toList)) ++ content.drop (p + mlen) =
                (content.take p ++ (comment ++ '\n' ::
                  (content.drop p).take g1len)) ++
                (i.name.toList ++ (".url = \"".toList ++ (pinned ++
                  ('"' :: (';' :: content.drop (p + mlen)))))) := by
              have e : "\";".toList = ['"', ';'] := rfl
              rw [e]
              simp [List.append_assoc]
            have hsim : containsSimplePinned i.name.toList pinned
                ((content.take p ++ (comment ++ '\n' ::
                  (content.drop p).take g1len)) ++
                (i.name.toList ++ (".url = \"".toList ++ (pinned ++
                  ('"' :: (';' :: content.drop (p + mlen))))))) = true := by
              unfold containsSimplePinned
              exact scanAny_append _ (simplePinnedAt_insert _ _ _)
            have hap2 : isAlreadyPinnedE (content.take p ++
                (comment ++ '\n' :: ((content.drop p).take g1len ++
                  i.name.toList ++ ".url = \"".toList ++ pinned ++
                  "\";".toList)) ++ content.drop (p + mlen)) i =
                .ok true := by
              rw [hshape]
              exact isAlreadyPinnedE_of_simple _ hpu hsim
            unfold processInput
            rw [hap2]
      | none =>
        rw [hsl] at hres
        dsimp only at hres
        cases hbl : findBlockLoc i.name.toList content with
        | none =>
          rw [hbl] at hres
          dsimp only at hres
          injection hres with hres
          subst hres
          show processInput content i = .ok (content, false)
          unfold processInput
          rw [hap]
          dsimp only
          rw [hsl]
          dsimp only
          rw [hbl]
        | some t =>
          obtain ⟨p, g1len, mlen⟩ := t
          rw [hbl] at hres
          dsimp only at hres
          cases hpu : buildPinnedUrlE i with
          | error e => rw [hpu] at hres; exact absurd hres (by simp)
          | ok pinned =>
            rw [hpu] at hres
            dsimp only at hres
            cases hsc : scanIdx matchUrlLineAt 0 ((content.drop p).take mlen)
              with
            | none =>
              rw [hsc] at hres
              dsimp only at hres
              injection hres with hres
              subst hres
              show processInput content i = .ok (content, false)
              unfold processInput
              rw [hap]
              dsimp only
              rw [hsl]
              dsimp only
              rw [hbl]
              dsimp only
              rw [hpu]
              dsimp only
              rw [hsc]
            | some t2 =>
              obtain ⟨q, ug1, ug2, um⟩ := t2
              rw [hsc] at hres
              dsimp only at hres
              cases hcm : buildRenovateCommentE i ug1 with
              | error e => rw [hcm] at hres; exact absurd hres (by simp)
              | ok comment =>
                rw [hcm] at hres
                dsimp only at hres
                injection hres with hres
                subst hres
                dsimp only
                rw [stepSafe, Bool.and_eq_true, Bool.and_eq_true] at hsafe
                obtain ⟨⟨hqn, hs2⟩, hs3⟩ := hsafe
                rw [hpu] at hs2
                dsimp only at hs2
                obtain ⟨ps, hps, hcmEq⟩ := buildRenovateCommentE_struct hcm
                rw [hps] at hs3
                dsimp only at hs3
                have hmu := scanIdx_inv hsc
                obtain ⟨ym0, restm0, hsplit0, humE, hug1ws⟩ :=
                  matchUrlLineAt_split hmu
                have hdug1 : dollarFree ug1 = true :=
                  dollarFree_of_all_space hug1ws
                have hdcm : dollarFree comment = true := by
                  rw [hcmEq]
                  unfold dollarFree
                  simp only [List.all_append, Bool.and_eq_true]
                  exact ⟨⟨hdug1, by decide⟩, hs3⟩
                have hdurep : dollarFree (comment ++ ug1 ++
                    "url = \"".toList ++ pinned ++ "\";".toList) = true := by
                  unfold dollarFree
                  simp only [List.all_append, Bool.and_eq_true]
                  exact ⟨⟨⟨⟨hdcm, hdug1⟩, by decide⟩, hs2⟩, by decide⟩
                obtain ⟨g1w, w2, w3, mid, wsq, hm0, hg1w, hw2, hw3⟩ :=
                  findBlockLoc_inv hbl
                have hm0' : (content.drop p).take mlen =
                    (g1w ++ (i.name.toList ++ (w2 ++ ('=' :: w3)))) ++
                      '{' :: (mid ++ (wsq ++ ['}', ';'])) := by
                  rw [hm0]
                  simp [List.append_assoc]
                have hq0 : quoteFree (g1w ++ (i.name.toList ++
                    (w2 ++ ('=' :: w3)))) = true := by
                  rw [show ('=' :: w3) = ['='] ++ w3 from rfl]
                  rw [quoteFree_append, quoteFree_append, quoteFree_append,
                    quoteFree_append]
                  rw [quoteFree_of_all_space hg1w, hqn,
                    quoteFree_of_all_space hw2, quoteFree_of_all_space hw3]
                  decide
                have hlenm0 : (g1w ++ (i.name.toList ++ (w2 ++
                    ('=' :: w3)))).length + 1 +
                    (mid ++ (wsq ++ ['}', ';'])).length ≤
                    ((content.drop p).take mlen).length := by
                  rw [hm0']
                  simp
                  omega
                have hrall : replUrlAll (comment ++ ug1 ++
                    "url = \"".toList ++ pinned ++ "\";".toList)
                    ((content.drop p).take mlen) =
                    (g1w ++ (i.name.toList ++ (w2 ++ ('=' :: w3)))) ++
                      '{' :: replUrlAux (comment ++ ug1 ++
                        "url = \"".toList ++ pinned ++ "\";".toList)
                        ((content.drop p).take mlen)
                        (mid ++ (wsq ++ ['}', ';'])).length
                        (0 + (g1w ++ (i.name.toList ++ (w2 ++
                          ('=' :: w3)))).length + 1)
                        (mid ++ (wsq ++ ['}', ';'])) := by
                  unfold replUrlAll
                  nth_rewrite 3 [hm0']
                  exact replUrl_head_pres _ _ _ _ _ _ hq0 hlenm0
                have hdd : content.drop (p + mlen) =
                    (content.drop p).drop mlen := by
                  rw [List.drop_drop]
                have hid : content.take p ++ (content.drop p).take mlen ++
                    content.drop (p + mlen) = content := by
                  rw [hdd, List.append_assoc, List.take_append_drop,
                    List.take_append_drop]
                cases hscT : scanIdx matchUrlLineAt 0
                    (mid ++ (wsq ++ ['}', ';'])) with
                | none =>
                  have hRT := replUrl_no_match (comment ++ ug1 ++
                    "url = \"".toList ++ pinned ++ "\";".toList)
                    ((content.drop p).take mlen)
                    (mid ++ (wsq ++ ['}', ';']))
                    (mid ++ (wsq ++ ['}', ';'])).length
                    (0 + (g1w ++ (i.name.toList ++ (w2 ++
                      ('=' :: w3)))).length + 1) 0 hscT
                  have hNC : content.take p ++ replUrlAll (comment ++ ug1 ++
                      "url = \"".toList ++ pinned ++ "\";".toList)
                      ((content.drop p).take mlen) ++
                      content.drop (p + mlen) = content := by
                    rw [hrall, hRT, ← hm0']
                    exact hid
                  rw [hNC]
                  unfold processInput
                  rw [hap]
                  dsimp only
                  rw [hsl]
                  dsimp only
                  rw [hbl]
                  dsimp only
                  rw [hpu]
                  dsimp only
                  rw [hsc]
                  dsimp only
                  rw [hcm]
                  dsimp only
                  rw [hNC]
                  simp
                | some t3 =>
                  obtain ⟨q2, tg1, tg2, tm⟩ := t3
                  have hfirst : replUrlAux (comment ++ ug1 ++
                      "url = \"".toList ++ pinned ++ "\";".toList)
                      ((content.drop p).take mlen)
                      (mid ++ (wsq ++ ['}', ';'])).length
                      (0 + (g1w ++ (i.name.toList ++ (w2 ++
                        ('=' :: w3)))).length + 1)
                      (mid ++ (wsq ++ ['}', ';'])) =
                      (mid ++ (wsq ++ ['}', ';'])).take q2 ++
                      (comment ++ ug1 ++ "url = \"".toList ++ pinned ++
                        "\";".toList) ++
                      replUrlAux (comment ++ ug1 ++ "url = \"".toList ++
                        pinned ++ "\";".toList)
                        ((content.drop p).take mlen)
                        ((mid ++ (wsq ++ ['}', ';'])).drop
                          (q2 + tm.length)).length
                        (0 + (g1w ++ (i.name.toList ++ (w2 ++
                          ('=' :: w3)))).length + 1 + q2 + tm.length)
                        ((mid ++ (wsq ++ ['}', ';'])).drop
                          (q2 + tm.length)) := by
                    rw [replUrl_first _ _ _ _ _ _ _ _ _ hscT le_rfl]
                    rw [jsSubst_dollarFree tm tg1 tg2 _ _ _ hdurep]
                  have hmuT := scanIdx_inv hscT
                  obtain ⟨ymT, restT, hsplitT, htmE, _⟩ :=
                    matchUrlLineAt_split hmuT
                  have hTa : mid ++ (wsq ++ ['}', ';']) =
                      (mid ++ (wsq ++ ['}', ';'])).take q2 ++
                        (tm ++ restT) := by
                    conv_lhs => rw [← List.take_append_drop q2
                      (mid ++ (wsq ++ ['}', ';'])), hsplitT]
                  have hTclose : mid ++ (wsq ++ ['}', ';']) =
                      (mid ++ wsq) ++ ['}', ';'] := by
                    simp [List.append_assoc]
                  obtain ⟨y2, hy2⟩ := rest_close hTa htmE hTclose
                  have hrestT : (mid ++ (wsq ++ ['}', ';'])).drop
                      (q2 + tm.length) = restT := by
                    have h1 : ((mid ++ (wsq ++ ['}', ';'])).drop q2).drop
                        tm.length = restT := by
                      rw [hsplitT, List.drop_left]
                    rw [← h1, List.drop_drop]
                  obtain ⟨y3, hy3⟩ := replUrl_close (comment ++ ug1 ++
                      "url = \"".toList ++ pinned ++ "\";".toList)
                      ((content.drop p).take mlen)
                      ((mid ++ (wsq ++ ['}', ';'])).drop
                        (q2 + tm.length)).length
                      ((mid ++ (wsq ++ ['}', ';'])).drop (q2 + tm.length))
                      (0 + (g1w ++ (i.name.toList ++ (w2 ++
                        ('=' :: w3)))).length + 1 + q2 + tm.length)
                      y2 (by rw [hrestT]; exact hy2)
                  have hfin : containsBlockPinned i.name.toList pinned
                      ((content.take p ++ g1w) ++ (i.name.toList ++ (w2 ++
                        ('=' :: (w3 ++ ('{' :: (((mid ++ (wsq ++
                        ['}', ';'])).take q2 ++ (comment ++ ug1)) ++
                        ("url = \"".toList ++ (pinned ++ ('"' :: (';' ::
                        ((y3 ++ ['}', ';']) ++ content.drop
                          (p + mlen))))))))))))) = true := by
                    unfold containsBlockPinned
                    apply scanAny_append
                    apply blockPinnedAt_shape _ _ _ _ _ hw2 hw3
                    apply scanThen_append
                    · exact parseUrlPinned_site pinned _
                    · have e3 : "\x7d;".toList = ['}', ';'] := rfl
                      rw [e3]
                      rw [show (';' :: ((y3 ++ ['}', ';']) ++
                          content.drop (p + mlen))) = (';' :: y3) ++
                          (['}', ';'] ++ content.drop (p + mlen)) from by
                        simp [List.append_assoc]]
                      exact containsSeq_middle ['}', ';'] (';' :: y3) _
                  have hblkc : containsBlockPinned i.name.toList pinned
                      (content.take p ++ replUrlAll (comment ++ ug1 ++
                        "url = \"".toList ++ pinned ++ "\";".toList)
                        ((content.drop p).take mlen) ++
                        content.drop (p + mlen)) = true := by
                    rw [hrall, hfirst, hy3]
                    have e2 : "\";".toList = ['"', ';'] := rfl
                    rw [e2]
                    convert hfin using 2
                    simp [List.append_assoc]
                  have hap2 : isAlreadyPinnedE (content.take p ++
                      replUrlAll (comment ++ ug1 ++ "url = \"".toList ++
                        pinned ++ "\";".toList)
                        ((content.drop p).take mlen) ++
                      content.drop (p + mlen)) i = .ok true :=
                    isAlreadyPinnedE_of_block _ hpu hblkc
                  unfold processInput
                  rw [hap2]

/-- **C1** (corrected): the spec's unconditional claim
`pin(pin(T, C), C) == pin(T, C)` is refuted by
`pin_twice_differs_counterexample`; what the code does guarantee is
idempotence of the candidate loop for a single candidate whose
interpolated fragments are benign (`stepSafe`): running the loop a second
time on the buffer it produced yields that same buffer with no change
flag, because the already-pinned check then succeeds. -/
theorem pin_singleton_idempotent (content : List Char) (i : PinnedInput)
    (r : List Char × Bool) (hsafe : stepSafe i = true)
    (h : processInputs content [i] = .ok r) :
    processInputs r.1 [i] = .ok (r.1, false) := by
  unfold processInputs at h
  cases hp : processInput content i with
  | error e => rw [hp] at h; exact absurd h (by simp)
  | ok r0 =>
    rw [hp] at h
    dsimp only at h
    rw [show processInputs r0.1 [] = .ok (r0.1, false) from rfl] at h
    dsimp only at h
    injection h with h
    subst h
    dsimp only
    have hstep := processInput_idem i content r0 hsafe hp
    unfold processInputs
    rw [hstep]
    dsimp only
    rw [show processInputs (r0.1, false).1 [] =
      .ok ((r0.1, false).1, false) from rfl]
    rfl

/-- Witness for `pin_singleton_idempotent` (claim C1): one step on a
concrete unpinned buffer, then the proved no-op second step. -/
theorem pin_singleton_idempotent_witness :
    processInputs w1Out [cx1A] = .ok (w1Out, false) :=
  pin_singleton_idempotent w1T cx1A (w1Out, true) (by decide) (by decide)
